import Mathlib

/-!
Verification of the Genshi i18n filter (`genshi/filters/i18n.py`): a shallow
embedding of the message parser (`parse_msg`), the `MessageBuffer`
(append / format / translate), the expression scanner (`extract_from_code`),
and the stream `Translator` (`__call__` and `extract`), together with
theorems settling the specified properties.

Python conventions modelled explicitly:
* exceptions (`IndexError` on `list.pop(0)` / `list[-1]` of an empty list,
  `KeyError` on missing dict keys, failed `assert`) are modelled by `Option`,
  with `none` meaning the Python code raises;
* dicts that are only read and updated key-wise are association lists;
* `str.strip()` is `String.trim`; positions are `(filename?, line, offset)`.
-/

namespace I18n

/-- Event position `(filename, lineno, offset)`; replayed text events carry
`(None, -1, -1)`. -/
abbrev Pos := Option String × Int × Int

/-- Constant values appearing in `compiler.ast.Const` nodes. -/
inductive PyConst : Type where
  | cstr (s : String)
  | cint (n : Int)
  | cother
  deriving Repr, DecidableEq

/-- The fragment of the `compiler.ast` node language that
`extract_from_code` walks: `CallFunc`, `Name`, `Const`, `Keyword`, and a
generic node kind exposing `getChildNodes()`. -/
inductive PyAst : Type where
  | callFunc (fn : PyAst) (args : List PyAst) (starArgs : Option PyAst)
      (dstarArgs : Option PyAst)
  | name (id : String)
  | const (v : PyConst)
  | keyword (kw : String) (value : PyAst)
  | node (kindName : String) (children : List PyAst)
  deriving Repr

/-- The `message` component of an extraction tuple: a bare value when the
call had a single string slot, a tuple of values otherwise.  `none` stands
for Python `None` (a non-literal argument). -/
inductive MsgVal : Type where
  | single (s : Option String)
  | tup (vs : List (Option String))
  deriving Repr, DecidableEq

/-- Template directives attached to `SUB` events; only the three i18n
directives are interpreted, everything else is opaque. -/
inductive Dir : Type where
  | domainD (d : String)
  | msgD (params : String)
  | commentD (c : String)
  | otherD
  deriving Repr, DecidableEq

mutual
/-- An attribute value: a literal string (`basestring`) or an embedded
substream of events. -/
inductive AttrV : Type where
  | lit (s : String)
  | strm (evs : List Ev)
  deriving Repr
/-- A markup stream event `(kind, data, pos)`.  `stop` is Genshi's `END`
kind; `other` covers the pass-through kinds (namespace events etc.). -/
inductive Ev : Type where
  | start (tag : String) (attrs : List (String × AttrV)) (p : Pos)
  | stop (tag : String) (p : Pos)
  | text (s : String) (p : Pos)
  | expr (code : PyAst) (p : Pos)
  | exec (code : PyAst) (p : Pos)
  | sub (dirs : List Dir) (substream : List Ev) (p : Pos)
  | other (kindName : String) (p : Pos)
  deriving Repr
end

/-- Position (third tuple component) of an event. -/
def Ev.pos : Ev → Pos
  | .start _ _ p => p
  | .stop _ p => p
  | .text _ p => p
  | .expr _ p => p
  | .exec _ p => p
  | .sub _ _ p => p
  | .other _ p => p

/-- Line number `pos[1]` of an event. -/
def Ev.line (ev : Ev) : Int := ev.pos.2.1

/-- Association-list lookup, modelling `dict.__getitem__` /`dict.get`. -/
def alGet {κ α : Type} [DecidableEq κ] : List (κ × α) → κ → Option α
  | [], _ => none
  | (k, v) :: rest, key => if key = k then some v else alGet rest key

/-- Association-list update, modelling `dict.__setitem__`: replaces the
binding in place, appending a fresh key at the end. -/
def alSet {κ α : Type} [DecidableEq κ] : List (κ × α) → κ → α → List (κ × α)
  | [], key, v => [(key, v)]
  | (k, w) :: rest, key, v =>
      if key = k then (k, v) :: rest else (k, w) :: alSet rest key v

/-- Concatenation of a list of strings (`u''.join`). -/
def strConcat : List String → String
  | [] => ""
  | s :: rest => s ++ strConcat rest

@[simp] theorem data_asString (l : List Char) : (List.asString l).data = l :=
  rfl

@[simp] theorem asString_eq_empty (l : List Char) :
    (List.asString l = "") ↔ l = [] := by
  constructor
  · intro h
    have := congrArg String.data h
    simpa using this
  · intro h
    subst h
    rfl

/-- The ASCII whitespace set stripped by Python `str.strip()`. -/
def isSpaceChar (c : Char) : Bool :=
  c = ' ' || c = '\t' || c = '\n' || c = '\r' || c = '\x0b' || c = '\x0c'

/-- Python `str.strip()`: drop whitespace from both ends. -/
def pyStrip (s : String) : String :=
  (((s.data.dropWhile isSpaceChar).reverse.dropWhile isSpaceChar).reverse).asString

/-- Decimal digit character for a value below ten. -/
def digitChar : Nat → Char
  | 0 => '0' | 1 => '1' | 2 => '2' | 3 => '3' | 4 => '4'
  | 5 => '5' | 6 => '6' | 7 => '7' | 8 => '8' | _ => '9'

/-- Fuelled decimal formatter (the fuel exceeds the digit count). -/
def natDigitsGo : Nat → Nat → List Char → List Char
  | 0, _, acc => acc
  | fuel + 1, n, acc =>
      if n < 10 then digitChar n :: acc
      else natDigitsGo fuel (n / 10) (digitChar (n % 10) :: acc)

/-- Decimal digits of a natural number, as `'%d' %` formats it. -/
def natDigits (n : Nat) : List Char := natDigitsGo (n + 1) n []

/-- The `'[%d:' % order` piece appended by `MessageBuffer.append` on START. -/
def strOpen (n : Nat) : String := "[" ++ (natDigits n).asString ++ ":"

/-- Numeric value of a digit string, as `int()` parses it. -/
def digitsVal (ds : List Char) : Nat :=
  ds.foldl (fun a c => 10 * a + (c.toNat - 48)) 0

/-- Greedy span of decimal digits (the `\d+` of the bracket regex). -/
def takeDigits : List Char → List Char × List Char
  | [] => ([], [])
  | c :: cs =>
      if c.isDigit then
        let p := takeDigits cs
        (c :: p.1, p.2)
      else ([], c :: cs)

/-- Attempt to match `\d+\:` right after an opening `[`. -/
def matchOpen (cs : List Char) : Option (Nat × List Char) :=
  match takeDigits cs with
  | ([], _) => none
  | (ds, rest) =>
      match rest with
      | ':' :: r => some (digitsVal ds, r)
      | _ => none

/-- `re.search` for the pattern `(?:\[(\d+)\:)|\]`: returns the text before
the match, the optional first group, and the text after the match. -/
def regexSearch : List Char → Option (List Char × Option Nat × List Char)
  | [] => none
  | c :: cs =>
      if c = '[' then
        match matchOpen cs with
        | some (n, rest) => some ([], some n, rest)
        | none => (regexSearch cs).map (fun q => (c :: q.1, q.2.1, q.2.2))
      else if c = ']' then some ([], none, cs)
      else (regexSearch cs).map (fun q => (c :: q.1, q.2.1, q.2.2))

/-- The `while True` loop of `parse_msg`, with fuel bounding the number of
matches consumed (each match consumes at least one character, so any fuel
above the string length is equivalent; see `parseGo_fuel`).  `none` models
the `IndexError` raised by `stack[-1]` on an empty stack. -/
def parseGo : Nat → List Char → List Nat → List (Nat × String) →
    Option (List (Nat × String))
  | 0, _, _, _ => none
  | fuel + 1, s, stack, parts =>
      match regexSearch s with
      | none =>
          if s = [] then some parts
          else
            match stack.getLast? with
            | some top => some (parts ++ [(top, s.asString)])
            | none => none
      | some (pre, g, suf) =>
          match stack.getLast? with
          | none => none
          | some top =>
              let parts2 :=
                if pre ≠ [] ∨ top ≠ 0 then parts ++ [(top, pre.asString)]
                else parts
              match g with
              | some n => parseGo fuel suf (stack ++ [n]) parts2
              | none =>
                  let stack2 := stack.dropLast
                  if stack2 = [] then
                    if suf = [] then some parts2 else none
                  else parseGo fuel suf stack2 parts2

/-- `parse_msg(string)`: parse a translated message in the bracket
grammar into `(order, text)` fragments. -/
def parse_msg (s : String) : Option (List (Nat × String)) :=
  parseGo (s.data.length + 1) s.data [0] []

/-- Word characters of the (non-unicode) `\w` class. -/
def wordChar (c : Char) : Bool := c.isAlphanum || c = '_'

/-- Greedy span of word characters. -/
def takeWord : List Char → List Char × List Char
  | [] => ([], [])
  | c :: cs =>
      if wordChar c then
        let p := takeWord cs
        (c :: p.1, p.2)
      else ([], c :: cs)

/-- Attempt to match `%(\w+)s` at the current position, returning the
group and the rest. -/
def matchPercent : List Char → Option (String × List Char)
  | '%' :: '(' :: rest =>
      match takeWord rest with
      | ([], _) => none
      | (w, more) =>
          match more with
          | ')' :: 's' :: r2 => some (w.asString, r2)
          | _ => none
  | _ => none

/-- `re.split` against `%(\w+)s`: alternating list of plain text and group
captures, starting and ending with (possibly empty) text.  Fuelled like
`parseGo`. -/
def reSplitGo : Nat → List Char → List Char → List String
  | 0, acc, _ => [acc.reverse.asString]
  | _ + 1, acc, [] => [acc.reverse.asString]
  | fuel + 1, acc, c :: cs =>
      match matchPercent (c :: cs) with
      | some (w, rest) => acc.reverse.asString :: w :: reSplitGo fuel [] rest
      | none => reSplitGo fuel (c :: acc) cs

/-- `regex.split(string)` for the `%(\w+)s` pattern. -/
def reSplit (s : List Char) : List String := reSplitGo (s.length + 1) [] s

/-- The `for idx, part in enumerate(regex.split(string))` loop of
`MessageBuffer.translate`: group captures are looked up in `values`
(`none` models the `KeyError`), non-empty literal parts become fresh TEXT
events at position `(None, -1, -1)`. -/
def emitSplit (vals : List (String × Ev)) : List String → Bool →
    Option (List Ev)
  | [], _ => some []
  | piece :: rest, isGroup => do
      if isGroup then
        match alGet vals piece with
        | none => none
        | some ev => do
            let tail ← emitSplit vals rest false
            pure (ev :: tail)
      else do
        let tail ← emitSplit vals rest true
        if piece = "" then pure tail
        else pure (Ev.text piece (none, -1, -1) :: tail)

/-- Interpolate one text fragment against the `values` dict. -/
def splitSub (vals : List (String × Ev)) (s : String) : Option (List Ev) :=
  emitSplit vals (reSplit s.data) false

/-- The state of a `MessageBuffer`. `events` maps an order id to the list
of captured raw events and `None` markers of that slot, `depth` is a Python
int (its truthiness test is `≠ 0`), `stack`'s top is its last element. -/
structure MessageBuffer : Type where
  params : List String
  comment : Option String
  lineno : Int
  string : List String
  events : List (Nat × List (Option Ev))
  values : List (String × Ev)
  depth : Int
  order : Nat
  stack : List Nat
  deriving Repr

/-- `MessageBuffer.__init__` with an explicit parameter-name list. -/
def mkMessageBuffer (params : List String) (comment : Option String)
    (lineno : Int) : MessageBuffer :=
  ⟨params, comment, lineno, [], [], [], 1, 1, [0]⟩

/-- `[name.strip() for name in params.split(',')]`. -/
def paramsSplit (s : String) : List String :=
  (s.split (fun c => c = ',')).map String.trim

/-- `dict.setdefault(key, []).append(x)`. -/
def alPush {κ : Type} [DecidableEq κ] {α : Type}
    (m : List (κ × List α)) (k : κ) (x : α) : List (κ × List α) :=
  alSet m k (((alGet m k).getD []) ++ [x])

/-- `MessageBuffer.append(kind, data, pos)`.  `none` models the Python
exceptions: `IndexError` from `params.pop(0)` on an empty parameter list or
from `stack[-1]` on an empty stack, `KeyError` from `events[stack[-1]]`. -/
def MessageBuffer.append (b : MessageBuffer) (ev : Ev) :
    Option MessageBuffer :=
  match ev with
  | .text s _ =>
      match b.stack.getLast? with
      | none => none
      | some top =>
          some { b with string := b.string ++ [s],
                        events := alPush b.events top none }
  | .expr _ _ =>
      match b.params with
      | [] => none
      | param :: ps =>
          match b.stack.getLast? with
          | none => none
          | some top =>
              some { b with params := ps,
                            string := b.string ++ ["%(" ++ param ++ ")s"],
                            events := alPush b.events top none,
                            values := alSet b.values param ev }
  | .start _ _ _ =>
      some { b with string := b.string ++ [strOpen b.order],
                    events := alPush b.events b.order (some ev),
                    stack := b.stack ++ [b.order],
                    depth := b.depth + 1,
                    order := b.order + 1 }
  | .stop _ _ =>
      let d := b.depth - 1
      if d ≠ 0 then
        match b.stack.getLast? with
        | none => none
        | some top =>
            match alGet b.events top with
            | none => none
            | some evs =>
                some { b with depth := d,
                              events := alSet b.events top (evs ++ [some ev]),
                              string := b.string ++ ["]"],
                              stack := b.stack.dropLast }
      else some { b with depth := d }
  | _ => some b

/-- Append a whole event sequence to the buffer. -/
def appendAll (b : MessageBuffer) (evs : List Ev) : Option MessageBuffer :=
  evs.foldlM MessageBuffer.append b

/-- `MessageBuffer.format()`: the flattened message identifier. -/
def MessageBuffer.format (b : MessageBuffer) : String :=
  pyStrip (strConcat b.string)

/-- The `while events:` loop of `MessageBuffer.translate` for one parsed
fragment: pops entries off the slot, re-emits captured raw events verbatim,
interpolates the fragment text at a `None` marker, and stops at the
fragment's break conditions.  Returns the emitted events and what remains
of the slot. -/
def drainOrder (vals : List (String × Ev)) (s : String) :
    List (Option Ev) → Option (List Ev × List (Option Ev))
  | [] => some ([], [])
  | some ev :: rest => do
      let pr ← drainOrder vals s rest
      pure (ev :: pr.1, pr.2)
  | none :: rest =>
      if s = "" then some ([], rest)
      else do
        let pieces ← splitSub vals s
        match rest with
        | [] => pure (pieces, [])
        | none :: _ => pure (pieces, rest)
        | some _ :: _ => do
            let pr ← drainOrder vals s rest
            pure (pieces ++ pr.1, pr.2)

/-- The `for order, string in parts:` loop of `MessageBuffer.translate`.
`none` on `self.events[order]` models the `KeyError` for an order id the
buffer never captured. -/
def translateParts (vals : List (String × Ev)) :
    List (Nat × List (Option Ev)) → List (Nat × String) → Option (List Ev)
  | _, [] => some []
  | events, (o, s) :: parts => do
      match alGet events o with
      | none => none
      | some evs => do
          let pr ← drainOrder vals s evs
          let rest ← translateParts vals (alSet events o pr.2) parts
          pure (pr.1 ++ rest)

/-- `MessageBuffer.translate(string)`: replay a translated message against
the captured events, as a fully consumed stream. -/
def MessageBuffer.translate (b : MessageBuffer) (s : String) :
    Option (List Ev) := do
  let parts ← parse_msg s
  translateParts b.values b.events parts

mutual
/-- Structural equality on AST nodes (Python `==` / `!=`). -/
def astBeq : PyAst → PyAst → Bool
  | .callFunc f1 a1 s1 d1, .callFunc f2 a2 s2 d2 =>
      astBeq f1 f2 && astsBeq a1 a2 && astOptBeq s1 s2 && astOptBeq d1 d2
  | .name n1, .name n2 => n1 == n2
  | .const v1, .const v2 => v1 == v2
  | .keyword k1 v1, .keyword k2 v2 => k1 == k2 && astBeq v1 v2
  | .node k1 c1, .node k2 c2 => k1 == k2 && astsBeq c1 c2
  | _, _ => false
/-- Structural equality on AST node lists. -/
def astsBeq : List PyAst → List PyAst → Bool
  | [], [] => true
  | a :: as1, b :: bs => astBeq a b && astsBeq as1 bs
  | _, _ => false
/-- Structural equality on optional AST nodes. -/
def astOptBeq : Option PyAst → Option PyAst → Bool
  | none, none => true
  | some a, some b => astBeq a b
  | _, _ => false
end

mutual
/-- Structural equality on events (Python `==` / `!=`). -/
def evBeq : Ev → Ev → Bool
  | .start t1 a1 p1, .start t2 a2 p2 => t1 == t2 && attrsBeq a1 a2 && p1 == p2
  | .stop t1 p1, .stop t2 p2 => t1 == t2 && p1 == p2
  | .text s1 p1, .text s2 p2 => s1 == s2 && p1 == p2
  | .expr c1 p1, .expr c2 p2 => astBeq c1 c2 && p1 == p2
  | .exec c1 p1, .exec c2 p2 => astBeq c1 c2 && p1 == p2
  | .sub d1 s1 p1, .sub d2 s2 p2 => d1 == d2 && evsBeq s1 s2 && p1 == p2
  | .other k1 p1, .other k2 p2 => k1 == k2 && p1 == p2
  | _, _ => false
/-- Structural equality on event lists. -/
def evsBeq : List Ev → List Ev → Bool
  | [], [] => true
  | a :: as1, b :: bs => evBeq a b && evsBeq as1 bs
  | _, _ => false
/-- Structural equality on attribute values. -/
def attrVBeq : AttrV → AttrV → Bool
  | .lit a, .lit b => a == b
  | .strm a, .strm b => evsBeq a b
  | _, _ => false
/-- Structural equality on attribute lists. -/
def attrsBeq : List (String × AttrV) → List (String × AttrV) → Bool
  | [], [] => true
  | (n1, v1) :: r1, (n2, v2) :: r2 => n1 == n2 && attrVBeq v1 v2 && attrsBeq r1 r2
  | _, _ => false
end

/-- The `_add(arg)` helper of `extract_from_code`: a `Const` with a string
value contributes the string, `None` and `Keyword` arguments are skipped,
any other (non-literal) argument contributes Python `None`. -/
def addArg (strings : List (Option String)) : Option PyAst → List (Option String)
  | none => strings
  | some (.const (.cstr s)) => strings ++ [some s]
  | some (.keyword _ _) => strings
  | some _ => strings ++ [none]

/-- `strings = strings[0] if len(strings) == 1 else tuple(strings)`. -/
def msgOf : List (Option String) → MsgVal
  | [s] => .single s
  | ss => .tup ss

/-- Argument strings of a matched call: positional args, then `star_args`
and `dstar_args`. -/
def argStrings (args : List PyAst) (st dst : Option PyAst) :
    List (Option String) :=
  addArg (addArg (args.foldl (fun acc a => addArg acc (some a)) []) st) dst

mutual
/-- The `_walk` of `extract_from_code`: yield at call nodes whose callee is
a bare known name; otherwise recurse into all child nodes. -/
def walkAst (funcs : List String) : PyAst → List (String × MsgVal)
  | .callFunc (.name f) args st dst =>
      if f ∈ funcs then [(f, msgOf (argStrings args st dst))]
      else
        walkAst funcs (.name f) ++ walkList funcs args ++
          walkOpt funcs st ++ walkOpt funcs dst
  | .callFunc fn args st dst =>
      walkAst funcs fn ++ walkList funcs args ++
        walkOpt funcs st ++ walkOpt funcs dst
  | .name _ => []
  | .const _ => []
  | .keyword _ v => walkAst funcs v
  | .node _ cs => walkList funcs cs
/-- `_walk` mapped over child lists. -/
def walkList (funcs : List String) : List PyAst → List (String × MsgVal)
  | [] => []
  | a :: rest => walkAst funcs a ++ walkList funcs rest
/-- `_walk` over an optional child. -/
def walkOpt (funcs : List String) : Option PyAst → List (String × MsgVal)
  | none => []
  | some a => walkAst funcs a
end

/-- `extract_from_code(code, gettext_functions)` on the code's AST. -/
def extract_from_code (ast : PyAst) (funcs : List String) :
    List (String × MsgVal) :=
  walkAst funcs ast

/-- `Translator.GETTEXT_FUNCTIONS`. -/
def GETTEXT_FUNCTIONS : List String :=
  ["_", "gettext", "ngettext", "dgettext", "dngettext", "ugettext",
   "ungettext"]

/-- `Translator.IGNORE_TAGS` (qualified names written `ns}local`). -/
def IGNORE_TAGS : List String :=
  ["script", "http://www.w3.org/1999/xhtml\x7dscript",
   "style", "http://www.w3.org/1999/xhtml\x7dstyle"]

/-- `Translator.INCLUDE_ATTRS`. -/
def INCLUDE_ATTRS : List String :=
  ["abbr", "alt", "label", "prompt", "standby", "summary", "title"]

/-- The qualified name `XML_NAMESPACE['lang']`. -/
def xmlLang : String := "http://www.w3.org/XML/1998/namespace\x7dlang"

/-- The qualified name `I18N_NAMESPACE['msg']`. -/
def i18nMsgQ : String := "http://genshi.edgewall.org/i18n\x7dmsg"

/-- The qualified name `I18N_NAMESPACE['comment']`. -/
def i18nCommentQ : String := "http://genshi.edgewall.org/i18n\x7dcomment"

/-- `attrs.get(name)`. -/
def attrsGet (attrs : List (String × AttrV)) (aname : String) : Option AttrV :=
  alGet attrs aname

/-- `isinstance(attrs.get(xml_lang), basestring)`. -/
def xmlLangLit (attrs : List (String × AttrV)) : Bool :=
  match attrsGet attrs xmlLang with
  | some (.lit _) => true
  | _ => false

/-- The `translate` argument of the `Translator`: a plain function
(`FunctionType`) or a translations object with `ugettext` and an optional
`dugettext`. -/
inductive TransSource : Type where
  | func (f : String → String)
  | obj (ugettext : String → String)
      (dugettext : Option (String → String → String))

/-- The locals `gettext` / `dgettext` of `Translator.__call__` after the
type dispatch; `dg = none` models the local `dgettext` never being
assigned (the `FunctionType` branch), so that using it raises. -/
structure TransFns : Type where
  g : String → String
  dg : Option (String → String → String)

/-- Lines 207–214 of `Translator.__call__`: resolve the translation
callable(s) from the `translate` attribute. -/
def resolveFns : TransSource → TransFns
  | .func f => ⟨f, none⟩
  | .obj ug dug => ⟨ug, some (dug.getD (fun _ y => ug y))⟩

/-- A value stored in the template context: strings and the registered
translation functions. -/
inductive CVal : Type where
  | str (s : String)
  | fn1 (f : String → String)
  | fn2 (f : String → String → String)

/-- Python truthiness of a context value. -/
def CVal.truthy : CVal → Bool
  | .str s => s ≠ ""
  | _ => true

/-- The template context: a stack of frames, most recent first, as
`genshi.template.base.Context` keeps them. -/
structure Ctxt : Type where
  frames : List (List (String × CVal))

/-- `Context.get`: first binding over the frames. -/
def Ctxt.get (c : Ctxt) (k : String) : Option CVal :=
  go c.frames
where
  go : List (List (String × CVal)) → Option CVal
    | [] => none
    | f :: fs => match alGet f k with
      | some v => some v
      | none => go fs

/-- `Context.__setitem__`: bind in the current frame. -/
def Ctxt.set (c : Ctxt) (k : String) (v : CVal) : Ctxt :=
  match c.frames with
  | [] => ⟨[[(k, v)]]⟩
  | f :: fs => ⟨alSet f k v :: fs⟩

/-- `Context.push`. -/
def Ctxt.push (c : Ctxt) (frame : List (String × CVal)) : Ctxt :=
  ⟨frame :: c.frames⟩

/-- `Context.pop`. -/
def Ctxt.pop (c : Ctxt) : Ctxt := ⟨c.frames.tail⟩

/-- `ctxt and ctxt.get(key)` as a truth value. -/
def ctxTruthyGet (c : Option Ctxt) (k : String) : Bool :=
  match c with
  | none => false
  | some cx => match cx.get k with
    | some v => v.truthy
    | none => false

/-- The string value of `ctxt.get('_i18n.domain')` (only string domains are
ever pushed). -/
def ctxDomain (c : Option Ctxt) : String :=
  match c with
  | some cx =>
      match cx.get "_i18n.domain" with
      | some (.str d) => d
      | _ => ""
  | none => ""

/-- One fuelled step list of Python `str.replace`, left-to-right and
non-overlapping. -/
def replaceGo : Nat → List Char → List Char → List Char → List Char
  | 0, s, _, _ => s
  | _ + 1, [], _, _ => []
  | fuel + 1, c :: cs, pat, rep =>
      if pat.isPrefixOf (c :: cs) then
        rep ++ replaceGo fuel ((c :: cs).drop pat.length) pat rep
      else c :: replaceGo fuel cs pat rep

/-- Python `data.replace(old, new)` (used with a non-empty `old`). -/
def pyReplace (s pat rep : String) : String :=
  (replaceGo (s.data.length + 1) s.data pat.data rep.data).asString

/-- `genshi.core._ensure` on an attribute value: an existing substream is
passed through, a bare string is iterated, each character wrapped as a
TEXT event at position `(None, -1, -1)`. -/
def ensure : AttrV → List Ev
  | .lit s => s.data.map (fun ch => Ev.text (String.singleton ch) (none, -1, -1))
  | .strm evs => evs

/-- The `Translator` filter configuration. -/
structure Translator : Type where
  translate : TransSource
  ignore_tags : List String
  include_attrs : List String
  extract_text : Bool

/-- The default `Translator(...)` arguments apart from `translate`. -/
def mkTranslator (src : TransSource) : Translator :=
  ⟨src, IGNORE_TAGS, INCLUDE_ATTRS, true⟩

mutual
/-- Nesting weight of one event, for termination of the stream walks. -/
def evSize : Ev → Nat
  | .start _ attrs _ => 1 + attrsSize attrs
  | .sub _ ss _ => 1 + evsSize ss
  | _ => 1
/-- Nesting weight of a stream. -/
def evsSize : List Ev → Nat
  | [] => 0
  | e :: r => evSize e + evsSize r
/-- Nesting weight of an attribute list. -/
def attrsSize : List (String × AttrV) → Nat
  | [] => 0
  | (_, v) :: r => attrVSize v + attrsSize r
/-- Nesting weight of an attribute value; a literal weighs more than the
per-character stream `_ensure` makes of it. -/
def attrVSize : AttrV → Nat
  | .lit s => s.data.length + 1
  | .strm evs => evsSize evs + 1
end

theorem evsSize_append (a b : List Ev) :
    evsSize (a ++ b) = evsSize a + evsSize b := by
  induction a with
  | nil => simp [evsSize]
  | cons e r ih => simp [evsSize, ih]; omega

theorem evSize_pos (e : Ev) : 0 < evSize e := by
  cases e <;> simp [evSize]

theorem evsSize_map_text (l : List Char) (f : Char → Ev)
    (hf : ∀ c, evSize (f c) = 1) : evsSize (l.map f) ≤ l.length := by
  induction l with
  | nil => simp [evsSize]
  | cons c cs ih => simp [evsSize, hf]; omega

theorem attrVSize_pos (v : AttrV) : 0 < attrVSize v := by
  cases v <;> simp [attrVSize]

theorem trGo_tail_lt (e : Ev) (r : List Ev) :
    2 * evsSize r < 2 * evsSize (e :: r) := by
  have h1 := evSize_pos e
  simp [evsSize]
  omega

theorem sub_call_lt (dirs : List Dir) (ss : List Ev) (p : Pos) (r : List Ev) :
    2 * evsSize ss + 1 < 2 * evsSize (Ev.sub dirs ss p :: r) := by
  simp [evsSize, evSize]
  omega

theorem start_attrs_lt (tag : String) (attrs : List (String × AttrV))
    (p : Pos) (r : List Ev) :
    2 * attrsSize attrs + 1 < 2 * evsSize (Ev.start tag attrs p :: r) := by
  simp [evsSize, evSize]
  omega

theorem trAttrs_tail_lt (n : String) (v : AttrV)
    (r : List (String × AttrV)) :
    2 * attrsSize r + 1 < 2 * attrsSize ((n, v) :: r) + 1 := by
  have h1 := attrVSize_pos v
  simp [attrsSize]
  omega

/-- `_ensure` of an attribute value weighs strictly less than the value. -/
theorem evsSize_ensure_lt (v : AttrV) : evsSize (ensure v) < attrVSize v := by
  cases v with
  | lit s =>
      have h1 := evsSize_map_text s.data
        (fun ch => Ev.text (String.singleton ch) (none, -1, -1))
        (fun c => by simp [evSize])
      have h2 : s.data.length = s.length := rfl
      simp [ensure, attrVSize]
      omega
  | strm evs => simp [ensure, attrVSize]

theorem trAttrs_ensure_lt (n : String) (v : AttrV)
    (r : List (String × AttrV)) :
    2 * evsSize (ensure v) + 1 < 2 * attrsSize ((n, v) :: r) + 1 := by
  have h1 := evsSize_ensure_lt v
  simp [attrsSize]
  omega

/-- Lines 216–218 of `Translator.__call__`: register the resolved
functions in the context when one is present; `none` models the
`UnboundLocalError` raised by reading the unassigned local `dgettext`
(the `FunctionType` branch). -/
def trRegister (fns : TransFns) (ctxt : Option Ctxt) :
    Option (Option Ctxt) :=
  match ctxt with
  | some c =>
      match fns.dg with
      | none => none
      | some dg =>
          some (some ((c.set "_i18n.gettext" (CVal.fn1 fns.g)).set
            "_i18n.dgettext" (CVal.fn2 dg)))
  | none => some none

mutual
/-- `Translator.__call__(stream, ctxt, search_text)`: resolve the
translation functions, register them in the context, and run the walk.
Returns the output stream and the (mutated) context. -/
def trCall (tr : Translator) (ctxt : Option Ctxt) (searchText : Bool)
    (stream : List Ev) : Option (List Ev × Option Ctxt) := do
  let fns := resolveFns tr.translate
  let ctxt2 ← trRegister fns ctxt
  let st := if tr.extract_text then searchText else false
  trGo tr fns ctxt2 st 0 stream
termination_by 2 * evsSize stream + 1
decreasing_by omega

/-- The per-event loop of `Translator.__call__`. -/
def trGo (tr : Translator) (fns : TransFns) (ctxt : Option Ctxt)
    (searchText : Bool) (skip : Nat) :
    List Ev → Option (List Ev × Option Ctxt)
  | [] => some ([], ctxt)
  | ev :: rest =>
      if skip > 0 then
        let skip2 :=
          match ev with
          | .start _ _ _ => skip + 1
          | .stop _ _ => skip - 1
          | _ => skip
        (trGo tr fns ctxt searchText skip2 rest).map
          (fun pr => (ev :: pr.1, pr.2))
      else
        match ev with
        | .start tag attrs p =>
            if tag ∈ tr.ignore_tags || xmlLangLit attrs then
              (trGo tr fns ctxt searchText (skip + 1) rest).map
                (fun pr => (Ev.start tag attrs p :: pr.1, pr.2))
            else do
              let ta ← trAttrs tr fns ctxt attrs
              let attrs2 := if ta.2.1 then ta.1 else attrs
              let pr ← trGo tr fns ta.2.2 searchText skip rest
              pure (Ev.start tag attrs2 p :: pr.1, pr.2)
        | .text s p =>
            if searchText then do
              let g ←
                if ctxTruthyGet ctxt "_i18n.domain" then
                  match fns.dg with
                  | none => none
                  | some dg => some (fun x => dg (ctxDomain ctxt) x)
                else some fns.g
              let t := pyStrip s
              let s2 := if t ≠ "" then pyReplace s t (g t) else s
              let pr ← trGo tr fns ctxt searchText skip rest
              pure (Ev.text s2 p :: pr.1, pr.2)
            else
              (trGo tr fns ctxt searchText skip rest).map
                (fun pr => (Ev.text s p :: pr.1, pr.2))
        | .sub dirs substream p => do
            let currentDomain := dirs.filterMap
              (fun d => match d with | .domainD dd => some dd | _ => none)
            let ctxt2 ←
              match currentDomain with
              | [] => some ctxt
              | d0 :: _ =>
                  match ctxt with
                  | none => none
                  | some cx =>
                      some (some (cx.push [("_i18n.domain", CVal.str d0)]))
            let isMsg := dirs.any
              (fun d => match d with | .msgD _ => true | _ => false)
            let pr ← trCall tr ctxt2 (!isMsg) substream
            let ctxt3 :=
              match currentDomain with
              | [] => pr.2
              | _ :: _ => pr.2.map Ctxt.pop
            let tail ← trGo tr fns ctxt3 searchText skip rest
            pure (Ev.sub dirs pr.1 p :: tail.1, tail.2)
        | e =>
            (trGo tr fns ctxt searchText skip rest).map
              (fun pr => (e :: pr.1, pr.2))
termination_by stream => 2 * evsSize stream
decreasing_by
  all_goals first
    | exact trGo_tail_lt _ _
    | exact sub_call_lt _ _ _ _
    | exact start_attrs_lt _ _ _ _

/-- The attribute loop of the START branch: translate literal values of
included attributes, recurse into attribute substreams with text search
disabled, and track the `changed` flag. -/
def trAttrs (tr : Translator) (fns : TransFns) (ctxt : Option Ctxt) :
    List (String × AttrV) →
    Option (List (String × AttrV) × Bool × Option Ctxt)
  | [] => some ([], false, ctxt)
  | (aname, value) :: rest => do
      let nv ←
        if tr.extract_text then
          match value with
          | AttrV.lit s =>
              some (if aname ∈ tr.include_attrs then AttrV.lit (fns.g s)
                    else AttrV.lit s, ctxt)
          | AttrV.strm evs => do
              let pr ← trCall tr ctxt false (ensure (AttrV.strm evs))
              pure (AttrV.strm pr.1, pr.2)
        else do
          let pr ← trCall tr ctxt false (ensure value)
          pure (AttrV.strm pr.1, pr.2)
      let ch := !(attrVBeq nv.1 value)
      let value2 := if ch then nv.1 else value
      let tl ← trAttrs tr fns nv.2 rest
      pure ((aname, value2) :: tl.1, (ch || tl.2.1), tl.2.2)
termination_by attrs => 2 * attrsSize attrs + 1
decreasing_by
  all_goals first
    | exact trAttrs_ensure_lt _ _ _
    | exact trAttrs_tail_lt _ _ _
end

/-- An extraction tuple `(lineno, function, message, comments)`. -/
abbrev ExtractTuple := Int × Option String × MsgVal × List String

/-- `filter(None, [msgbuf.comment])`. -/
def commentsOf : Option String → List String
  | some c => if c ≠ "" then [c] else []
  | none => []

/-- The parameter declaration carried by an `i18n:msg` attribute:
`if type(msg_params) is list: msg_params = msg_params[0][1]`.  A substream
whose first event is not TEXT makes the buffer constructor choke later;
that failure is modelled here. -/
def msgParamsOf : AttrV → Option String
  | .lit s => some s
  | .strm (Ev.text s _ :: _) => some s
  | .strm _ => none

/-- The `i18n:comment` attribute as the buffer's comment (`None` when
absent or not a literal). -/
def commentAttr (attrs : List (String × AttrV)) : Option String :=
  match attrsGet attrs i18nCommentQ with
  | some (.lit s) => some s
  | _ => none

mutual
/-- `Translator.extract(stream, gettext_functions, search_text, msgbuf)`.
Returns the extraction tuples together with the final state of the buffer
object the caller passed in (callers observe mutations of that object, but
not rebindings of the callee's local variable). -/
def extractList (tr : Translator) (funcs : List String) (searchText : Bool)
    (mb : Option MessageBuffer) (stream : List Ev) :
    Option (List ExtractTuple × Option MessageBuffer) :=
  extractGo tr funcs (if tr.extract_text then searchText else false)
    stream 0 mb true none
termination_by 2 * evsSize stream + 1
decreasing_by omega

/-- The per-event loop of `Translator.extract`.  `alv` records whether
the local `msgbuf` is still the very object the caller passed in; `frozen`
is that object's state at the moment the local variable was rebound. -/
def extractGo (tr : Translator) (funcs : List String) (searchText : Bool) :
    List Ev → Nat → Option MessageBuffer → Bool → Option MessageBuffer →
    Option (List ExtractTuple × Option MessageBuffer)
  | [], _, mb, alv, frozen => some ([], if alv then mb else frozen)
  | ev :: rest, skip, mb, alv, frozen =>
      let skip1 :=
        if skip > 0 then
          match ev with
          | .start _ _ _ => skip + 1
          | .stop _ _ => skip - 1
          | _ => skip
        else skip
      match ev with
      | .start tag attrs p =>
          if skip1 ≠ 0 then extractGo tr funcs searchText rest skip1 mb alv frozen
          else if tag ∈ tr.ignore_tags || xmlLangLit attrs then
            extractGo tr funcs searchText rest (skip1 + 1) mb alv frozen
          else do
            let atts ← extractAttrs tr funcs searchText attrs p
            match mb with
            | some b => do
                let b2 ← b.append (Ev.start tag attrs p)
                let pr ← extractGo tr funcs searchText rest skip1 (some b2)
                  alv frozen
                pure (atts ++ pr.1, pr.2)
            | none =>
                match attrsGet attrs i18nMsgQ with
                | some mp => do
                    match msgParamsOf mp with
                    | none => none
                    | some ps => do
                        let nb := mkMessageBuffer (paramsSplit ps)
                          (commentAttr attrs) p.2.1
                        let frozen2 := if alv then mb else frozen
                        let pr ← extractGo tr funcs searchText rest skip1
                          (some nb) false frozen2
                        pure (atts ++ pr.1, pr.2)
                | none => do
                    let pr ← extractGo tr funcs searchText rest skip1 none
                      alv frozen
                    pure (atts ++ pr.1, pr.2)
      | .text s p =>
          if skip1 = 0 && searchText then
            match mb with
            | none =>
                let t := pyStrip s
                if t ≠ "" && t.data.any Char.isAlpha then
                  (extractGo tr funcs searchText rest skip1 none alv
                    frozen).map (fun pr =>
                      ((p.2.1, none, MsgVal.single (some t), []) :: pr.1,
                        pr.2))
                else extractGo tr funcs searchText rest skip1 none alv frozen
            | some b => do
                let b2 ← b.append (Ev.text s p)
                extractGo tr funcs searchText rest skip1 (some b2) alv frozen
          else extractGo tr funcs searchText rest skip1 mb alv frozen
      | .stop tag p =>
          match mb with
          | some b =>
              if skip1 = 0 then do
                let b2 ← b.append (Ev.stop tag p)
                if b2.depth = 0 then
                  let tup : ExtractTuple :=
                    (b2.lineno, none, MsgVal.single (some b2.format),
                      commentsOf b2.comment)
                  let frozen2 := if alv then some b2 else frozen
                  (extractGo tr funcs searchText rest skip1 none false
                    frozen2).map (fun pr => (tup :: pr.1, pr.2))
                else
                  extractGo tr funcs searchText rest skip1 (some b2) alv
                    frozen
              else extractGo tr funcs searchText rest skip1 mb alv frozen
          | none => extractGo tr funcs searchText rest skip1 none alv frozen
      | .expr code p => do
          let mb2 ←
            match mb with
            | some b => (b.append (Ev.expr code p)).map some
            | none => some none
          let tuples := (extract_from_code code funcs).map
            (fun pr => ((p.2.1 : Int), some pr.1, pr.2, ([] : List String)))
          let tail ← extractGo tr funcs searchText rest skip1 mb2 alv frozen
          pure (tuples ++ tail.1, tail.2)
      | .exec code p => do
          let mb2 ←
            match mb with
            | some b => (b.append (Ev.exec code p)).map some
            | none => some none
          let tuples := (extract_from_code code funcs).map
            (fun pr => ((p.2.1 : Int), some pr.1, pr.2, ([] : List String)))
          let tail ← extractGo tr funcs searchText rest skip1 mb2 alv frozen
          pure (tuples ++ tail.1, tail.2)
      | .sub _ substream _ => do
          let pr ← extractList tr funcs (searchText && skip1 = 0) mb substream
          let tail ← extractGo tr funcs searchText rest skip1 pr.2 alv frozen
          pure (pr.1 ++ tail.1, tail.2)
      | .other _ _ => extractGo tr funcs searchText rest skip1 mb alv frozen
termination_by s _ _ _ _ => 2 * evsSize s
decreasing_by
  all_goals first
    | exact trGo_tail_lt _ _
    | exact sub_call_lt _ _ _ _
    | exact start_attrs_lt _ _ _ _

/-- The attribute loop of the extraction START branch: yield included
literal attributes with alphabetic content, recurse into attribute
substreams with text search disabled. -/
def extractAttrs (tr : Translator) (funcs : List String)
    (searchText : Bool) : List (String × AttrV) → Pos →
    Option (List ExtractTuple)
  | [], _ => some []
  | (aname, value) :: rest, p => do
      let head ←
        if searchText then
          match value with
          | AttrV.lit s =>
              if aname ∈ tr.include_attrs then
                let t := pyStrip s
                if t ≠ "" then
                  some [((p.2.1 : Int), (none : Option String),
                    MsgVal.single (some t), ([] : List String))]
                else some []
              else some []
          | AttrV.strm evs => do
              let pr ← extractList tr funcs false none
                (ensure (AttrV.strm evs))
              pure pr.1
        else do
          let pr ← extractList tr funcs false none (ensure value)
          pure pr.1
      let tail ← extractAttrs tr funcs searchText rest p
      pure (head ++ tail)
termination_by attrs _ => 2 * attrsSize attrs + 1
decreasing_by
  all_goals first
    | exact trAttrs_ensure_lt _ _ _
    | exact trAttrs_tail_lt _ _ _
end

/-- `Translator.extract` with its default arguments. -/
def Translator.extract (tr : Translator) (stream : List Ev) :
    Option (List ExtractTuple) :=
  (extractList tr GETTEXT_FUNCTIONS true none stream).map Prod.fst

/-- `DomainDirective.__call__`: push the domain for the substream, pop it
afterwards; events pass through unchanged. -/
def domainDirectiveCall (d : String) (ctxt : Ctxt) (stream : List Ev) :
    List Ev × Ctxt :=
  (stream, ((ctxt.push [("_i18n.domain", CVal.str d)]).pop))

/-- `MsgDirective.__call__`: re-emit the outer start tag, capture the inner
events in a fresh `MessageBuffer`, translate its identifier with the
context's `gettext` (or a domain lookup through `_i18n.dgettext` when a
domain is active; the `assert callable(dgettext)` failure and the
`TypeError` of calling a non-function are both `none`), replay, and
re-emit the outer end tag. -/
def msgDirectiveCall (paramsValue : String) (ctxt : Ctxt)
    (stream : List Ev) : Option (List Ev) :=
  match stream with
  | [] => none
  | [_] => none
  | first :: rest =>
      match rest.getLast? with
      | none => none
      | some lastEv => do
          let mb ← appendAll
            (mkMessageBuffer (paramsSplit paramsValue) none (-1))
            rest.dropLast
          let g : String → String ←
            if ctxTruthyGet (some ctxt) "_i18n.domain" then
              match ctxt.get "_i18n.dgettext" with
              | some (CVal.fn2 dg) =>
                  some (fun msg => dg (ctxDomain (some ctxt)) msg)
              | _ => none
            else
              match ctxt.get "_i18n.gettext" with
              | some (CVal.fn1 gg) => some gg
              | _ => none
          let out ← mb.translate (g mb.format)
          pure (first :: (out ++ [lastEv]))

/-! ### Properties of the message parser -/

theorem takeDigits_eq (cs : List Char) :
    cs = (takeDigits cs).1 ++ (takeDigits cs).2 := by
  induction cs with
  | nil => rfl
  | cons c cs ih =>
      simp only [takeDigits]
      split
      · simp only [List.cons_append]
        exact congrArg (c :: ·) ih
      · rfl

theorem takeDigits_digits (cs : List Char) :
    ∀ c ∈ (takeDigits cs).1, c.isDigit := by
  induction cs with
  | nil => simp [takeDigits]
  | cons c cs ih =>
      simp only [takeDigits]
      split
      · rename_i hdig
        intro x hx
        rcases List.mem_cons.mp hx with h | h
        · subst h; exact hdig
        · exact ih x h
      · simp

theorem matchOpen_decomp {cs : List Char} {n : Nat} {rst : List Char}
    (h : matchOpen cs = some (n, rst)) :
    ∃ ds, (∀ c ∈ ds, c.isDigit) ∧ cs = ds ++ ':' :: rst ∧
      digitsVal ds = n := by
  have hd := takeDigits_eq cs
  have hdg := takeDigits_digits cs
  unfold matchOpen at h
  split at h
  · exact absurd h (by simp)
  · rename_i heq
    rw [heq] at hd hdg
    simp only [] at hd hdg
    split at h
    · injection h with h2
      injection h2 with h3 h4
      subst h4
      exact ⟨_, hdg, hd, h3⟩
    · exact absurd h (by simp)

theorem matchOpen_len {cs : List Char} {n : Nat} {rst : List Char}
    (h : matchOpen cs = some (n, rst)) : rst.length < cs.length := by
  obtain ⟨ds, _, hcs, _⟩ := matchOpen_decomp h
  subst hcs
  simp
  omega

theorem matchOpen_suffix {cs : List Char} {n : Nat} {rst : List Char}
    (h : matchOpen cs = some (n, rst)) : rst <:+ cs := by
  obtain ⟨ds, _, hcs, _⟩ := matchOpen_decomp h
  subst hcs
  exact ⟨ds ++ [':'], by simp⟩

theorem regexSearch_len {s pre suf : List Char} {g : Option Nat}
    (h : regexSearch s = some (pre, g, suf)) : suf.length < s.length := by
  induction s generalizing pre g suf with
  | nil => simp [regexSearch] at h
  | cons c cs ih =>
      simp only [regexSearch] at h
      split at h
      · split at h
        · rename_i n rest heq
          cases h
          have := matchOpen_len heq
          simpa using Nat.lt_succ_of_lt this
        · simp only [Option.map_eq_some'] at h
          obtain ⟨⟨p2, g2, s2⟩, hh, he⟩ := h
          cases he
          simpa using Nat.lt_succ_of_lt (ih hh)
      · split at h
        · cases h
          simp
        · simp only [Option.map_eq_some'] at h
          obtain ⟨⟨p2, g2, s2⟩, hh, he⟩ := h
          cases he
          simpa using Nat.lt_succ_of_lt (ih hh)

theorem regexSearch_suffix {s pre suf : List Char} {g : Option Nat}
    (h : regexSearch s = some (pre, g, suf)) : suf <:+ s := by
  induction s generalizing pre g suf with
  | nil => simp [regexSearch] at h
  | cons c cs ih =>
      simp only [regexSearch] at h
      split at h
      · split at h
        · rename_i n rest heq
          cases h
          exact (matchOpen_suffix heq).trans (List.suffix_cons c cs)
        · simp only [Option.map_eq_some'] at h
          obtain ⟨⟨p2, g2, s2⟩, hh, he⟩ := h
          cases he
          exact (ih hh).trans (List.suffix_cons c cs)
      · split at h
        · cases h
          exact List.suffix_cons c cs
        · simp only [Option.map_eq_some'] at h
          obtain ⟨⟨p2, g2, s2⟩, hh, he⟩ := h
          cases he
          exact (ih hh).trans (List.suffix_cons c cs)

theorem regexSearch_close_mem {s pre suf : List Char}
    (h : regexSearch s = some (pre, none, suf)) : ']' ∈ s := by
  induction s generalizing pre suf with
  | nil => simp [regexSearch] at h
  | cons c cs ih =>
      simp only [regexSearch] at h
      split at h
      · split at h
        · rename_i n rest heq
          cases h
        · simp only [Option.map_eq_some'] at h
          obtain ⟨⟨p2, g2, s2⟩, hh, he⟩ := h
          have h2 : g2 = none := congrArg (fun t => t.2.1) he
          subst h2
          exact List.mem_cons_of_mem c (ih hh)
      · split at h
        · rename_i hc
          simp [hc]
        · simp only [Option.map_eq_some'] at h
          obtain ⟨⟨p2, g2, s2⟩, hh, he⟩ := h
          have h2 : g2 = none := congrArg (fun t => t.2.1) he
          subst h2
          exact List.mem_cons_of_mem c (ih hh)

theorem parseGo_total (fuel : Nat) :
    ∀ (s : List Char) (stack : List Nat) (parts : List (Nat × String)),
    s.length < fuel → stack ≠ [] → ']' ∉ s →
    (parseGo fuel s stack parts).isSome := by
  induction fuel with
  | zero => intro s _ _ hl; omega
  | succ fuel ih =>
      intro s stack parts hl hs hc
      simp only [parseGo]
      split
      · split
        · simp
        · rename_i hne
          match hgl : stack.getLast? with
          | some top => simp
          | none => exact absurd (List.getLast?_eq_none_iff.mp hgl) hs
      · rename_i pre g suf hrs
        match hgl : stack.getLast? with
        | none => exact absurd (List.getLast?_eq_none_iff.mp hgl) hs
        | some top =>
            simp only []
            match g with
            | some n =>
                apply ih
                · have := regexSearch_len hrs
                  omega
                · simp
                · intro hmem
                  exact hc ((regexSearch_suffix hrs).subset hmem)
            | none => exact absurd (regexSearch_close_mem hrs) hc

/-- Claim C4: the nesting example from the grammar specification. -/
theorem parse_nesting_confirmed :
    parse_msg "See [1:our [2:Help] page] for details." =
      some [(0, "See "), (1, "our "), (2, "Help"), (1, " page"),
            (0, " for details.")] := by
  decide

/-- Claim C2 (counterexample): on `"a]b"` the closing bracket empties the
stack while text remains, and `parse_msg` raises `IndexError`
(`stack[-1]` on an empty list) instead of truncating. -/
theorem parse_counterexample : parse_msg "a]b" = none := by decide

/-- Claim C2 (amended): `parse_msg` always terminates; an input without any
`]` (in particular one with unclosed `[`) never raises — the unclosed
brackets are silently truncated — but a `]` that empties the stack raises
unless it is the last character.  The second and third conjuncts show the
two truncation behaviours on concrete inputs. -/
theorem parse_truncation_amended :
    (∀ s : String, ']' ∉ s.data → (parse_msg s).isSome) ∧
      parse_msg "See [1:Help" = some [(0, "See "), (1, "Help")] ∧
      parse_msg "a]" = some [(0, "a")] := by
  refine ⟨fun s hc => ?_, by decide, by decide⟩
  exact parseGo_total (s.data.length + 1) s.data [0] [] (by omega)
    (by simp) hc

/-- Witness for `parse_truncation_amended` at the concrete input
`"x[1:y"`. -/
theorem parse_truncation_witness :
    ']' ∉ "x[1:y".data ∧ (parse_msg "x[1:y").isSome :=
  ⟨by decide, parse_truncation_amended.1 "x[1:y" (by decide)⟩

/-! ### The C3 reordering scenario -/

/-- The nested element's attributes of the reordering scenario. -/
def hrefAttrs : List (String × AttrV) := [("href", AttrV.lit "help.html")]

/-- A source position used by the captured events. -/
def posA : Pos := (some "tmpl", 3, 10)

/-- The captured fragment whose identifier is `"See [1:Help]."`. -/
def fragC3 : List Ev :=
  [Ev.text "See " posA, Ev.start "a" hrefAttrs posA, Ev.text "Help" posA,
   Ev.stop "a" posA, Ev.text "." posA]

/-- The buffer after capturing `fragC3` (parameters declared as the empty
string, as `MsgDirective` does for a valueless directive). -/
def bufC3 : Option MessageBuffer :=
  appendAll (mkMessageBuffer (paramsSplit "") none (-1)) fragC3

/-- Claim C3 (counterexample): translating with `"[1:Help] — see."` does
not yield the claimed sequence — the trailing TEXT carries `" — see."`
(the space after `]` is kept), not `"— see."`, and the `"Help"` TEXT is a
fresh event with position `(None, -1, -1)`, not the captured one. -/
theorem reorder_counterexample :
    bufC3.bind (fun b => b.translate "[1:Help] — see.") ≠
      some [Ev.start "a" hrefAttrs posA, Ev.text "Help" posA,
            Ev.stop "a" posA, Ev.text "— see." (none, -1, -1)] := by
  intro h
  have hv : bufC3.bind (fun b => b.translate "[1:Help] — see.") =
      some [Ev.start "a" hrefAttrs posA, Ev.text "Help" (none, -1, -1),
            Ev.stop "a" posA, Ev.text " — see." (none, -1, -1)] := rfl
  rw [hv] at h
  have h2 := Option.some.inj h
  have h3 : Ev.text "Help" ((none : Option String), (-1 : Int), (-1 : Int)) =
      Ev.text "Help" posA := by
    injection h2 with _ h4
    injection h4
  injection h3 with _ hp
  exact absurd hp (by decide)

/-- Claim C3 (amended): the replay emits the captured START and END events
of order 1 verbatim (the `href` payload unchanged), a fresh TEXT `"Help"`
at position `(None, -1, -1)`, and then a fresh TEXT `" — see."` carrying
the leading space of the translated string. -/
theorem reorder_amended :
    bufC3.bind (fun b => b.translate "[1:Help] — see.") =
      some [Ev.start "a" hrefAttrs posA, Ev.text "Help" (none, -1, -1),
            Ev.stop "a" posA, Ev.text " — see." (none, -1, -1)] := rfl

/-! ### Expression extraction -/

/-- The `ngettext` expression of the extraction-multiplicity example,
wrapped in its expression node. -/
def ngettextExpr : PyAst :=
  PyAst.node "Expression"
    [PyAst.callFunc (PyAst.name "ngettext")
      [PyAst.const (PyConst.cstr "You have %d item"),
       PyAst.const (PyConst.cstr "You have %d items"),
       PyAst.name "num"] none none]

/-- Claim C6: scanning the expression yields exactly one result, whose
message is the 3-tuple with the non-literal third argument as `None`. -/
theorem extract_multiplicity_confirmed :
    extract_from_code ngettextExpr GETTEXT_FUNCTIONS =
      [("ngettext", MsgVal.tup
        [some "You have %d item", some "You have %d items", none])] := rfl

/-! ### Replay with an unknown order id (C7) -/

theorem alGet_alSet {κ α : Type} [DecidableEq κ]
    (m : List (κ × α)) (k : κ) (v : α) (k2 : κ) :
    alGet (alSet m k v) k2 = if k2 = k then some v else alGet m k2 := by
  induction m with
  | nil => by_cases h2 : k2 = k <;> simp [alSet, alGet, h2]
  | cons hd rest ih =>
      obtain ⟨k1, w⟩ := hd
      by_cases hk : k = k1
      · subst hk
        by_cases h2 : k2 = k <;> simp [alSet, alGet, h2]
      · by_cases h2 : k2 = k1
        · subst h2
          have hk2 : ¬(k2 = k) := fun h => hk h.symm
          simp [alSet, alGet, hk, hk2]
        · simp [alSet, alGet, hk, h2, ih]

theorem translateParts_missing (vals : List (String × Ev)) :
    ∀ (events : List (Nat × List (Option Ev))) (parts : List (Nat × String))
      (o : Nat) (t : String),
    (o, t) ∈ parts → alGet events o = none →
    translateParts vals events parts = none := by
  intro events parts
  induction parts generalizing events with
  | nil => intro o t h _; simp at h
  | cons hd tl ih =>
      intro o t hmem hmiss
      obtain ⟨o1, s1⟩ := hd
      rcases List.mem_cons.mp hmem with he | hin
      · injection he with h1 h2
        subst h1
        simp [translateParts, hmiss]
      · cases hget : alGet events o1 with
        | none => simp [translateParts, hget]
        | some evs =>
            have hne : o ≠ o1 := by
              intro h
              subst h
              rw [hget] at hmiss
              cases hmiss
            cases hdr : drainOrder vals s1 evs with
            | none => simp [translateParts, hget, hdr]
            | some pr =>
                have hmiss2 : alGet (alSet events o1 pr.2) o = none := by
                  rw [alGet_alSet]
                  simp [hne, hmiss]
                have hrec := ih (alSet events o1 pr.2) o t hin hmiss2
                simp [translateParts, hget, hdr, hrec]

/-- Claim C7: a translated string that references an order id with no
entry in the buffer's captured events makes `translate` raise (`KeyError`
on `self.events[order]`), so the mismatch is reported, not dropped. -/
theorem translate_missing_order_confirmed (b : MessageBuffer) (s : String)
    (parts : List (Nat × String)) (o : Nat) (t : String)
    (hp : parse_msg s = some parts) (hm : (o, t) ∈ parts)
    (hmiss : alGet b.events o = none) :
    b.translate s = none := by
  unfold MessageBuffer.translate
  rw [hp]
  exact translateParts_missing b.values b.events parts o t hm hmiss

/-- The concrete buffer of the C3 scenario (its captured orders are `0`
and `1` only). -/
def bufC3v : MessageBuffer := bufC3.getD (mkMessageBuffer [] none (-1))

/-- Witness for `translate_missing_order_confirmed`: the C3 buffer has no
order 5, and a translated string referencing `[5:...]` fails. -/
theorem translate_missing_order_witness :
    parse_msg "[5:x]" = some [(5, "x")] ∧
      alGet bufC3v.events 5 = none ∧
      bufC3v.translate "[5:x]" = none :=
  ⟨rfl, rfl,
    translate_missing_order_confirmed bufC3v "[5:x]" [(5, "x")] 5 "x" rfl
      (by simp) rfl⟩

/-! ### More expressions than declared parameters (C8) -/

/-- Number of EXPR events in a sequence. -/
def countExprs : List Ev → Nat
  | [] => 0
  | Ev.expr _ _ :: rest => countExprs rest + 1
  | _ :: rest => countExprs rest

/-- Parameter-queue consumption of one appended event. -/
def exprInc : Ev → Nat
  | .expr _ _ => 1
  | _ => 0

theorem countExprs_cons (ev : Ev) (rest : List Ev) :
    countExprs (ev :: rest) = exprInc ev + countExprs rest := by
  cases ev <;> (simp [countExprs, exprInc]; try omega)

theorem append_params_len {b : MessageBuffer} {ev : Ev} {b2 : MessageBuffer}
    (h : b.append ev = some b2) :
    b2.params.length + exprInc ev = b.params.length := by
  cases ev with
  | text s p =>
      simp only [MessageBuffer.append] at h
      split at h
      · cases h
      · cases h
        simp [exprInc]
  | expr code p =>
      simp only [MessageBuffer.append] at h
      split at h
      · cases h
      · split at h
        · cases h
        · cases h
          simp_all [exprInc]
  | start tag attrs p =>
      simp only [MessageBuffer.append] at h
      cases h
      simp [exprInc]
  | stop tag p =>
      simp only [MessageBuffer.append] at h
      split at h
      · split at h
        · cases h
        · split at h
          · cases h
          · cases h
            simp [exprInc]
      · cases h
        simp [exprInc]
  | exec code p => cases h; simp [exprInc]
  | sub dirs ss p => cases h; simp [exprInc]
  | other k p => cases h; simp [exprInc]

/-- Claim C8: appending more EXPR events than declared parameter names
fails — the single append with an exhausted parameter list raises
(`params.pop(0)` on an empty list), and consequently appending any event
sequence with more EXPR events than parameters fails. -/
theorem expr_params_overflow_confirmed :
    (∀ (b : MessageBuffer) (code : PyAst) (p : Pos),
      b.params = [] → b.append (Ev.expr code p) = none) ∧
    ∀ (evs : List Ev) (b : MessageBuffer),
      b.params.length < countExprs evs → appendAll b evs = none := by
  constructor
  · intro b code p hempty
    simp [MessageBuffer.append, hempty]
  · intro evs
    induction evs with
    | nil => intro b h; simp [countExprs] at h
    | cons ev rest ih =>
        intro b h
        rw [countExprs_cons] at h
        unfold appendAll
        rw [List.foldlM_cons]
        cases hb : b.append ev with
        | none => rfl
        | some b2 =>
            have hp := append_params_len hb
            have := ih b2 (by omega)
            unfold appendAll at this
            simpa using this

/-- Witness for `expr_params_overflow_confirmed` part 2: one declared
parameter, two expressions. -/
theorem expr_params_overflow_witness :
    (mkMessageBuffer ["x"] none (-1)).params.length <
        countExprs [Ev.expr (PyAst.name "a") posA,
          Ev.expr (PyAst.name "b") posA] ∧
      appendAll (mkMessageBuffer ["x"] none (-1))
        [Ev.expr (PyAst.name "a") posA, Ev.expr (PyAst.name "b") posA] =
        none :=
  ⟨by decide, expr_params_overflow_confirmed.2 _ _ (by decide)⟩

/-! ### Expression extraction inside a skipped subtree (C10) -/

/-- Claim C10: inside an ignored (skipped) subtree, `Translator.extract`
still routes every EXPR event through `extract_from_code` and yields the
resulting tuples, while the TEXT content (`t`) and the included `title`
attribute beneath the ignored element produce nothing. -/
theorem skip_expr_extraction_confirmed
    (tr : Translator) (funcs : List String) (st : Bool)
    (tagI : String) (attrsI : List (String × AttrV)) (p1 : Pos)
    (tag2 : String) (tval : String) (p2 : Pos)
    (code : PyAst) (p3 : Pos) (t : String) (p4 p5 p6 : Pos)
    (rest : List Ev)
    (hI : tagI ∈ tr.ignore_tags) :
    extractList tr funcs st none
      (Ev.start tagI attrsI p1 ::
        Ev.start tag2 [("title", AttrV.lit tval)] p2 ::
        Ev.expr code p3 :: Ev.text t p4 ::
        Ev.stop tag2 p5 :: Ev.stop tagI p6 :: rest) =
    (extractList tr funcs st none rest).map
      (fun pr => ((extract_from_code code funcs).map
        (fun q => (p3.2.1, some q.1, q.2, ([] : List String))) ++ pr.1,
        pr.2)) := by
  simp [extractList, extractGo, hI]
  cases extractGo tr funcs (tr.extract_text && st) rest 0 none true none <;>
    rfl

/-- Witness for `skip_expr_extraction_confirmed` on a concrete stream
under a `script` tag. -/
theorem skip_expr_extraction_witness :
    "script" ∈ (mkTranslator (TransSource.obj id none)).ignore_tags ∧
      extractList (mkTranslator (TransSource.obj id none))
        GETTEXT_FUNCTIONS true none
        [Ev.start "script" [] posA,
         Ev.start "div" [("title", AttrV.lit "Hello")] posA,
         Ev.expr (PyAst.callFunc (PyAst.name "_")
           [PyAst.const (PyConst.cstr "Hi")] none none) posA,
         Ev.text "Free text" posA,
         Ev.stop "div" posA, Ev.stop "script" posA] =
      (extractList (mkTranslator (TransSource.obj id none))
        GETTEXT_FUNCTIONS true none ([] : List Ev)).map
        (fun pr => ((extract_from_code (PyAst.callFunc (PyAst.name "_")
            [PyAst.const (PyConst.cstr "Hi")] none none)
            GETTEXT_FUNCTIONS).map
          (fun q => ((3 : Int), some q.1, q.2, ([] : List String))) ++ pr.1,
          pr.2)) :=
  ⟨by decide,
    skip_expr_extraction_confirmed (mkTranslator (TransSource.obj id none))
      GETTEXT_FUNCTIONS true "script" [] posA "div" "Hello" posA
      (PyAst.callFunc (PyAst.name "_")
        [PyAst.const (PyConst.cstr "Hi")] none none) posA
      "Free text" posA posA posA [] (by decide)⟩

/-! ### The translator skip scope (C5) -/

/-- Events that leave the skip counter unchanged. -/
def evFlat : Ev → Prop
  | .start _ _ _ => False
  | .stop _ _ => False
  | _ => True

/-- Streams whose START/END events are balanced and never close more than
they opened — exactly the shapes a skipped subtree interior can have
(`SUB` events are opaque to the skip counter). -/
inductive IsForest : List Ev → Prop where
  | nil : IsForest []
  | leaf (ev : Ev) (rest : List Ev) : evFlat ev → IsForest rest →
      IsForest (ev :: rest)
  | node (tag : String) (attrs : List (String × AttrV)) (p : Pos)
      (tag2 : String) (p2 : Pos) (inner rest : List Ev) :
      IsForest inner → IsForest rest →
      IsForest (Ev.start tag attrs p :: (inner ++ Ev.stop tag2 p2 :: rest))

/-- In skip mode the walk re-emits a balanced interior verbatim and
returns to the same skip depth. -/
theorem trGo_skip_forest {w : List Ev} (hw : IsForest w) :
    ∀ (tr : Translator) (fns : TransFns) (ctxt : Option Ctxt) (st : Bool)
      (k : Nat), 1 ≤ k → ∀ (rest : List Ev),
    trGo tr fns ctxt st k (w ++ rest) =
      (trGo tr fns ctxt st k rest).map (fun pr => (w ++ pr.1, pr.2)) := by
  induction hw with
  | nil =>
      intro tr fns ctxt st k hk rest
      cases hgo : trGo tr fns ctxt st k rest <;> simp [hgo]
  | leaf ev rest2 hflat hrest ih =>
      intro tr fns ctxt st k hk rest
      have hkpos : 0 < k := hk
      have hstep : trGo tr fns ctxt st k ((ev :: rest2) ++ rest) =
          (trGo tr fns ctxt st k (rest2 ++ rest)).map
            (fun pr => (ev :: pr.1, pr.2)) := by
        cases ev <;> simp [evFlat] at hflat <;> simp [trGo, hkpos]
      rw [hstep, ih tr fns ctxt st k hk rest]
      cases hgo : trGo tr fns ctxt st k rest <;> simp [hgo]
  | node tag attrs p tag2 p2 inner rest2 hinner hrest ihinner ihrest =>
      intro tr fns ctxt st k hk rest
      have hkpos : 0 < k := hk
      have hassoc :
          (Ev.start tag attrs p :: (inner ++ Ev.stop tag2 p2 :: rest2)) ++
              rest =
            Ev.start tag attrs p ::
              (inner ++ (Ev.stop tag2 p2 :: (rest2 ++ rest))) := by
        simp
      rw [hassoc]
      have h1 : trGo tr fns ctxt st k (Ev.start tag attrs p ::
          (inner ++ (Ev.stop tag2 p2 :: (rest2 ++ rest)))) =
          (trGo tr fns ctxt st (k + 1)
            (inner ++ (Ev.stop tag2 p2 :: (rest2 ++ rest)))).map
            (fun pr => (Ev.start tag attrs p :: pr.1, pr.2)) := by
        simp [trGo, hkpos]
      rw [h1, ihinner tr fns ctxt st (k + 1) (by omega)
        (Ev.stop tag2 p2 :: (rest2 ++ rest))]
      have h2 : trGo tr fns ctxt st (k + 1)
          (Ev.stop tag2 p2 :: (rest2 ++ rest)) =
          (trGo tr fns ctxt st k (rest2 ++ rest)).map
            (fun pr => (Ev.stop tag2 p2 :: pr.1, pr.2)) := by
        simp [trGo]
      rw [h2, ihrest tr fns ctxt st k hk rest]
      cases hgo : trGo tr fns ctxt st k rest <;> simp [hgo]

/-- The skip scope at the walk level, for any skip-mode entry. -/
theorem trGo_skip_scope
    (tr : Translator) (fns : TransFns) (ctxt : Option Ctxt) (st : Bool)
    (tag : String) (attrs : List (String × AttrV)) (p : Pos)
    (w : List Ev) (tag2 : String) (p2 : Pos) (rest : List Ev)
    (hcond : (tag ∈ tr.ignore_tags || xmlLangLit attrs) = true)
    (hw : IsForest w) :
    trGo tr fns ctxt st 0
      (Ev.start tag attrs p :: (w ++ Ev.stop tag2 p2 :: rest)) =
      (trGo tr fns ctxt st 0 rest).map
        (fun pr =>
          (Ev.start tag attrs p :: (w ++ Ev.stop tag2 p2 :: pr.1),
            pr.2)) := by
  have h1 : trGo tr fns ctxt st 0
      (Ev.start tag attrs p :: (w ++ Ev.stop tag2 p2 :: rest)) =
      (trGo tr fns ctxt st 1 (w ++ Ev.stop tag2 p2 :: rest)).map
        (fun pr => (Ev.start tag attrs p :: pr.1, pr.2)) := by
    simp [trGo, hcond]
  rw [h1, trGo_skip_forest hw tr fns ctxt st 1 (by omega)
    (Ev.stop tag2 p2 :: rest)]
  have h2 : trGo tr fns ctxt st 1 (Ev.stop tag2 p2 :: rest) =
      (trGo tr fns ctxt st 0 rest).map
        (fun pr => (Ev.stop tag2 p2 :: pr.1, pr.2)) := by
    simp [trGo]
  rw [h2]
  cases hgo : trGo tr fns ctxt st 0 rest <;> simp [hgo]

/-- Claim C5: for an element whose tag is ignored or that carries a
literal `xml:lang` attribute, the filter re-emits the start event, the
whole balanced interior and the closing end event verbatim — for every
translator (hence every translation function), context, and search flag —
and resumes normal processing after it. -/
theorem skip_scope_confirmed
    (tr : Translator) (ctxt : Option Ctxt) (st : Bool)
    (tag : String) (attrs : List (String × AttrV)) (p : Pos)
    (w : List Ev) (tag2 : String) (p2 : Pos) (rest : List Ev)
    (htrig : tag ∈ tr.ignore_tags ∨ xmlLangLit attrs = true)
    (hw : IsForest w) :
    trCall tr ctxt st
      (Ev.start tag attrs p :: (w ++ Ev.stop tag2 p2 :: rest)) =
      (trCall tr ctxt st rest).map
        (fun pr =>
          (Ev.start tag attrs p :: (w ++ Ev.stop tag2 p2 :: pr.1),
            pr.2)) := by
  have hcond : (tag ∈ tr.ignore_tags || xmlLangLit attrs) = true := by
    rcases htrig with h | h
    · simp [h]
    · simp [h]
  simp only [trCall]
  cases hreg : trRegister (resolveFns tr.translate) ctxt with
  | none => rfl
  | some c2 =>
      exact trGo_skip_scope tr (resolveFns tr.translate) c2
        (if tr.extract_text then st else false) tag attrs p w tag2 p2 rest
        hcond hw

/-- Witness for `skip_scope_confirmed`: a `style` element containing text
and a nested element, under a translator that would otherwise append a
suffix to every text. -/
theorem skip_scope_witness :
    ("style" ∈ (mkTranslator
        (TransSource.obj (fun s => s ++ "X") none)).ignore_tags ∨
      xmlLangLit [] = true) ∧
      IsForest [Ev.text "b" posA, Ev.start "em" [] posA,
        Ev.text "c" posA, Ev.stop "em" posA] ∧
      trCall (mkTranslator (TransSource.obj (fun s => s ++ "X") none))
        none true
        (Ev.start "style" [] posA ::
          ([Ev.text "b" posA, Ev.start "em" [] posA, Ev.text "c" posA,
            Ev.stop "em" posA] ++ Ev.stop "style" posA ::
            [Ev.text "hello" posA])) =
      (trCall (mkTranslator (TransSource.obj (fun s => s ++ "X") none))
        none true [Ev.text "hello" posA]).map
        (fun pr => (Ev.start "style" [] posA ::
          ([Ev.text "b" posA, Ev.start "em" [] posA, Ev.text "c" posA,
            Ev.stop "em" posA] ++ Ev.stop "style" posA :: pr.1), pr.2)) :=
  ⟨Or.inl (by decide),
    IsForest.leaf _ _ trivial
      (IsForest.node "em" [] posA "em" posA [Ev.text "c" posA] []
        (IsForest.leaf _ _ trivial IsForest.nil) IsForest.nil),
    skip_scope_confirmed _ none true "style" [] posA _ "style" posA _
      (Or.inl (by decide))
      (IsForest.leaf _ _ trivial
        (IsForest.node "em" [] posA "em" posA [Ev.text "c" posA] []
          (IsForest.leaf _ _ trivial IsForest.nil) IsForest.nil))⟩

/-! ### Domain-aware translation configuration (C9) -/

/-- The translation function of the C9 scenario. -/
def ugC9 : String → String := fun s => s ++ "!"

/-- The context as `Translator.__call__` leaves it for a translations
object without `dugettext`: the registered `_i18n.dgettext` is the
fallback that ignores its domain argument. -/
def ctxtReg : Ctxt :=
  ((Ctxt.mk [[]]).set "_i18n.gettext" (CVal.fn1 ugC9)).set
    "_i18n.dgettext" (CVal.fn2 (fun _ y => ugC9 y))

/-- Claim C9 (counterexample): with a translations object that is not
domain-capable (`dugettext` missing) and an active domain, the filter
registers a silent fallback, and `MsgDirective` proceeds normally —
translating through the plain function and ignoring the domain — instead
of reporting a configuration failure. -/
theorem domain_fallback_counterexample :
    trCall (mkTranslator (TransSource.obj ugC9 none))
        (some (Ctxt.mk [[]])) true [] = some ([], some ctxtReg) ∧
      msgDirectiveCall "" (ctxtReg.push [("_i18n.domain", CVal.str "de")])
        [Ev.start "p" [] posA, Ev.text "Hello" posA, Ev.stop "p" posA] =
      some [Ev.start "p" [] posA, Ev.text "Hello!" (none, -1, -1),
            Ev.stop "p" posA] := by
  constructor
  · simp [trCall, trRegister, trGo, resolveFns, mkTranslator, ctxtReg]
  · rfl

/-- A context value that `callable(...)` rejects as a two-argument
translation function (Python `None` or a non-callable). -/
def notCallable2 : Option CVal → Prop
  | some (CVal.fn2 _) => False
  | _ => True

/-- Claim C9 (amended): the failure `MsgDirective` reports
(`assert callable(dgettext)`, or the `TypeError` of invoking what was
stored) occurs exactly when a domain is active but the context carries no
two-argument `_i18n.dgettext` function at all — e.g. when the `Translator`
filter never ran; a translations object lacking `dugettext` does not fail:
`Translator.__call__` resolves it to a fallback that ignores the domain
(second conjunct), so the mismatch is silent. -/
theorem domain_failure_amended :
    (∀ (params : String) (ctxt : Ctxt) (stream : List Ev),
      ctxTruthyGet (some ctxt) "_i18n.domain" = true →
      notCallable2 (ctxt.get "_i18n.dgettext") →
      msgDirectiveCall params ctxt stream = none) ∧
    ∀ (ug : String → String),
      resolveFns (TransSource.obj ug none) =
        ⟨ug, some (fun _ y => ug y)⟩ := by
  constructor
  · intro params ctxt stream hdom hnc
    cases stream with
    | nil => rfl
    | cons first rest =>
        cases rest with
        | nil => rfl
        | cons r1 rs =>
            simp only [msgDirectiveCall]
            cases hgl : (r1 :: rs).getLast? with
            | none => rfl
            | some lastEv =>
                cases happ : appendAll
                    (mkMessageBuffer (paramsSplit params) none (-1))
                    (r1 :: rs).dropLast with
                | none => rfl
                | some mb =>
                    cases hdg : ctxt.get "_i18n.dgettext" with
                    | none => simp [hdom, hdg]
                    | some cv =>
                        cases cv with
                        | str s => simp [hdom, hdg]
                        | fn1 f => simp [hdom, hdg]
                        | fn2 f =>
                            rw [hdg] at hnc
                            exact absurd hnc (by simp [notCallable2])
  · intro ug
    rfl

/-- Witness for `domain_failure_amended`: a context with an active domain
and a plain `gettext` but no registered `dgettext` makes the directive
fail. -/
theorem domain_failure_witness :
    ctxTruthyGet (some (Ctxt.mk [[("_i18n.domain", CVal.str "de"),
        ("_i18n.gettext", CVal.fn1 ugC9)]])) "_i18n.domain" = true ∧
      notCallable2 ((Ctxt.mk [[("_i18n.domain", CVal.str "de"),
        ("_i18n.gettext", CVal.fn1 ugC9)]]).get "_i18n.dgettext") ∧
      msgDirectiveCall "" (Ctxt.mk [[("_i18n.domain", CVal.str "de"),
          ("_i18n.gettext", CVal.fn1 ugC9)]])
        [Ev.start "p" [] posA, Ev.text "Hello" posA, Ev.stop "p" posA] =
        none :=
  ⟨rfl, by simp [notCallable2, Ctxt.get, Ctxt.get.go, alGet],
    domain_failure_amended.1 "" _ _ rfl
      (by simp [notCallable2, Ctxt.get, Ctxt.get.go, alGet])⟩

/-! ### Round-trip identity (C1): mixed-content fragments -/

/-- Mixed-content fragments: the well-bracketed event sequences a
`MessageBuffer` captures — text, expressions, and properly nested
elements. -/
inductive Frag : Type where
  | nil : Frag
  | txt (s : String) (p : Pos) (rest : Frag) : Frag
  | xpr (code : PyAst) (p : Pos) (rest : Frag) : Frag
  | elem (tag : String) (attrs : List (String × AttrV)) (ps pe : Pos)
      (content : Frag) (rest : Frag) : Frag
  deriving Repr

/-- The event sequence of a fragment. -/
def Frag.events : Frag → List Ev
  | .nil => []
  | .txt s p r => Ev.text s p :: r.events
  | .xpr c p r => Ev.expr c p :: r.events
  | .elem t a ps pe c r =>
      Ev.start t a ps :: (c.events ++ Ev.stop t pe :: r.events)

/-- The event sequence the replay produces: the same events, except that
TEXT events are fresh, at position `(None, -1, -1)`. -/
def Frag.outEvents : Frag → List Ev
  | .nil => []
  | .txt s _ r => Ev.text s (none, -1, -1) :: r.outEvents
  | .xpr c p r => Ev.expr c p :: r.outEvents
  | .elem t a ps pe c r =>
      Ev.start t a ps :: (c.outEvents ++ Ev.stop t pe :: r.outEvents)

/-- Number of expression events (parameters consumed). -/
def Frag.nExprs : Frag → Nat
  | .nil => 0
  | .txt _ _ r => r.nExprs
  | .xpr _ _ r => 1 + r.nExprs
  | .elem _ _ _ _ c r => c.nExprs + r.nExprs

/-- Number of elements (order ids allocated). -/
def Frag.nElems : Frag → Nat
  | .nil => 0
  | .txt _ _ r => r.nElems
  | .xpr _ _ r => r.nElems
  | .elem _ _ _ _ c r => 1 + c.nElems + r.nElems

/-- The expression events, in document order. -/
def Frag.xprs : Frag → List Ev
  | .nil => []
  | .txt _ _ r => r.xprs
  | .xpr c p r => Ev.expr c p :: r.xprs
  | .elem _ _ _ _ c r => c.xprs ++ r.xprs

/-- The `None` markers a fragment contributes to the enclosing slot. -/
def Frag.markers : Frag → List (Option Ev)
  | .nil => []
  | .txt _ _ r => none :: r.markers
  | .xpr _ _ r => none :: r.markers
  | .elem _ _ _ _ _ r => r.markers

/-- The slots (order id, captured list) a fragment creates, numbering its
elements from `n` in document order. -/
def Frag.slots : Frag → Nat → List (Nat × List (Option Ev))
  | .nil, _ => []
  | .txt _ _ r, n => r.slots n
  | .xpr _ _ r, n => r.slots n
  | .elem t a ps pe c r, n =>
      (n, some (Ev.start t a ps) :: (c.markers ++ [some (Ev.stop t pe)])) ::
        (c.slots (n + 1) ++ r.slots (n + 1 + c.nElems))

/-- The `%(name)s` placeholder of a parameter. -/
def pholder (p : String) : String := "%(" ++ p ++ ")s"

/-- The message-string pieces the buffer accumulates for a fragment, given
the remaining parameter queue and the next order id. -/
def Frag.pieces : Frag → List String → Nat → List String
  | .nil, _, _ => []
  | .txt s _ r, ps, n => s :: r.pieces ps n
  | .xpr _ _ r, ps, n =>
      match ps with
      | [] => []
      | p :: ps2 => pholder p :: r.pieces ps2 n
  | .elem _ _ _ _ c r, ps, n =>
      strOpen n :: (c.pieces ps (n + 1) ++ "]" ::
        r.pieces (ps.drop c.nExprs) (n + 1 + c.nElems))

/-- The rendered message identifier of a fragment (before stripping). -/
def Frag.render (f : Frag) (ps : List String) : String :=
  strConcat (f.pieces ps 1)

/-- Characters that are plain text both for the bracket parser and for the
placeholder interpolation. -/
def safeChar (c : Char) : Bool := !(c = '[' || c = ']' || c = '%')

/-- Non-empty text free of the bracket and placeholder metacharacters. -/
def safeText (s : String) : Bool := s ≠ "" && s.data.all safeChar

/-- A non-empty `\w+` parameter name. -/
def wordStr (s : String) : Bool := s ≠ "" && s.data.all wordChar

/-- Alternation discipline for a content sequence.  `prev` records the
previous item: `none` for an element or the start of the sequence,
`some isTxt` for a TEXT/EXPR marker.  `strict` is true for element
content, where exactly one marker must open and close the content and
separate consecutive child elements (any marker adjacency loses the
END event of the element on replay); at top level only TEXT next to TEXT is
forbidden (the replay merges the two texts into one event). -/
def seqOk (strict : Bool) : Frag → Option Bool → Bool
  | .nil, prev => !strict || prev.isSome
  | .txt s _ r, prev =>
      (match prev with
       | none => true
       | some isTxt => !strict && !isTxt) &&
        safeText s && seqOk strict r (some true)
  | .xpr _ _ r, prev =>
      (match prev with
       | none => true
       | some _ => !strict) && seqOk strict r (some false)
  | .elem _ _ _ _ c r, prev =>
      (!strict || prev.isSome) &&
        (match c with
         | .nil => true
         | _ => seqOk true c none) &&
        seqOk strict r none

/-- Well-formed element content: empty, or a strictly alternating
`marker (element marker)*` sequence. -/
def elemOk : Frag → Bool
  | .nil => true
  | c => seqOk true c none

/-- Well-formed top-level fragment. -/
def rootOk (f : Frag) : Bool := seqOk false f none

/-- Number of TEXT/EXPR markers at the top level of a sequence. -/
def Frag.nMarkers : Frag → Nat
  | .nil => 0
  | .txt _ _ r => 1 + r.nMarkers
  | .xpr _ _ r => 1 + r.nMarkers
  | .elem _ _ _ _ _ r => r.nMarkers

/-- The parse fragments produced while scanning a content sequence:
`pend` is the accumulated pending text, `o` the current slot, `n` the next
order id.  Returns the emitted parts and the final pending text (emitted
by the caller at the closing bracket or end of string). -/
def Frag.partsPre : Frag → String → List String → Nat → Nat →
    List (Nat × String) × String
  | .nil, pend, _, _, _ => ([], pend)
  | .txt s _ r, pend, ps, o, n => r.partsPre (pend ++ s) ps o n
  | .xpr _ _ r, pend, ps, o, n =>
      match ps with
      | [] => ([], pend)
      | p :: ps2 => r.partsPre (pend ++ pholder p) ps2 o n
  | .elem _ _ _ _ c r, pend, ps, o, n =>
      let first := if pend ≠ "" ∨ o ≠ 0 then [(o, pend)] else []
      let pc := c.partsPre "" ps n (n + 1)
      let pr := r.partsPre "" (ps.drop c.nExprs) o (n + 1 + c.nElems)
      (first ++ (pc.1 ++ ((n, pc.2) :: pr.1)), pr.2)

/-- The replay output of a content sequence region: `lead` are captured
events still to be re-emitted at the first visited part, `pendE` the
replay of the pending marker.  Returns the events the region emits and
the final lead/pending state (flushed by the caller's closing part). -/
def Frag.seqOut : Frag → List Ev → List Ev → List Ev × List Ev × List Ev
  | .nil, lead, pendE => ([], lead, pendE)
  | .txt s _ r, lead, pendE =>
      r.seqOut lead (pendE ++ [Ev.text s (none, -1, -1)])
  | .xpr c p r, lead, pendE => r.seqOut lead (pendE ++ [Ev.expr c p])
  | .elem t a ps pe c r, lead, pendE =>
      let pc := c.seqOut [Ev.start t a ps] []
      let elemOut := pc.1 ++ (pc.2.1 ++ pc.2.2 ++ [Ev.stop t pe])
      let pr := r.seqOut [] []
      ((lead ++ pendE) ++ elemOut ++ pr.1, pr.2)

theorem alGet_append {κ α : Type} [DecidableEq κ]
    (l1 l2 : List (κ × α)) (k : κ) :
    alGet (l1 ++ l2) k =
      match alGet l1 k with
      | some v => some v
      | none => alGet l2 k := by
  induction l1 with
  | nil => simp [alGet]
  | cons hd rest ih =>
      obtain ⟨k1, v1⟩ := hd
      by_cases hk : k = k1
      · subst hk
        simp [alGet]
      · simp [alGet, hk, ih]

theorem alGet_alPush {κ : Type} [DecidableEq κ] {α : Type}
    (m : List (κ × List α)) (k : κ) (x : α) (k2 : κ) :
    alGet (alPush m k x) k2 =
      if k2 = k then some (((alGet m k).getD []) ++ [x])
      else alGet m k2 := by
  unfold alPush
  rw [alGet_alSet]

theorem alGet_mem {κ α : Type} [DecidableEq κ]
    {l : List (κ × α)} {k : κ} {v : α} (h : alGet l k = some v) :
    (k, v) ∈ l := by
  induction l with
  | nil => simp [alGet] at h
  | cons hd rest ih =>
      obtain ⟨k1, v1⟩ := hd
      by_cases hk : k = k1
      · subst hk
        simp [alGet] at h
        simp [h]
      · simp [alGet, hk] at h
        exact List.mem_cons_of_mem _ (ih h)

theorem slots_bounds (f : Frag) :
    ∀ (n : Nat) (kv : Nat × List (Option Ev)), kv ∈ f.slots n →
    n ≤ kv.1 ∧ kv.1 < n + f.nElems := by
  induction f with
  | nil => intro n kv h; simp [Frag.slots] at h
  | txt s p r ih => intro n kv h; simpa [Frag.slots, Frag.nElems] using ih n kv h
  | xpr c p r ih => intro n kv h; simpa [Frag.slots, Frag.nElems] using ih n kv h
  | elem t a ps pe c r ihc ihr =>
      intro n kv h
      simp only [Frag.slots, List.mem_cons, List.mem_append] at h
      rcases h with h | h | h
      · subst h
        simp [Frag.nElems]
      · have := ihc (n + 1) kv h
        simp [Frag.nElems]
        omega
      · have := ihr (n + 1 + c.nElems) kv h
        simp [Frag.nElems]
        omega

theorem slots_none_low (f : Frag) (n k : Nat) (h : k < n) :
    alGet (f.slots n) k = none := by
  cases hg : alGet (f.slots n) k with
  | none => rfl
  | some v =>
      have := slots_bounds f n (k, v) (alGet_mem hg)
      omega

theorem slots_none_high (f : Frag) (n k : Nat) (h : n + f.nElems ≤ k) :
    alGet (f.slots n) k = none := by
  cases hg : alGet (f.slots n) k with
  | none => rfl
  | some v =>
      have := slots_bounds f n (k, v) (alGet_mem hg)
      omega

theorem xprs_length (f : Frag) : f.xprs.length = f.nExprs := by
  induction f with
  | nil => rfl
  | txt s p r ih => simpa [Frag.xprs, Frag.nExprs] using ih
  | xpr c p r ih => simp [Frag.xprs, Frag.nExprs, ih]; omega
  | elem t a ps pe c r ihc ihr => simp [Frag.xprs, Frag.nExprs, ihc, ihr]

theorem markers_replicate (f : Frag) :
    f.markers = List.replicate f.nMarkers (none : Option Ev) := by
  induction f with
  | nil => rfl
  | txt s p r ih => simp [Frag.markers, Frag.nMarkers, ih, List.replicate_add]
  | xpr c p r ih => simp [Frag.markers, Frag.nMarkers, ih, List.replicate_add]
  | elem t a ps pe c r ihc ihr => simpa [Frag.markers, Frag.nMarkers] using ihr

/-- The captured-events dict after appending a fragment: new slots for its
elements, its markers appended to the current top slot, everything else
untouched. -/
def eventsAfter (f : Frag) (b : MessageBuffer) (top : Nat) (k : Nat) :
    Option (List (Option Ev)) :=
  match alGet (f.slots b.order) k with
  | some v => some v
  | none =>
      if k = top then
        match f.markers with
        | [] => alGet b.events k
        | _ => some (((alGet b.events top).getD []) ++ f.markers)
      else alGet b.events k

/-- The values dict after appending a fragment: the consumed parameters
bound to their expression events (later bindings shadowing earlier ones),
everything else untouched. -/
def valuesAfter (f : Frag) (b : MessageBuffer) (q : String) : Option Ev :=
  match alGet (List.zip (b.params.take f.nExprs) f.xprs).reverse q with
  | some v => some v
  | none => alGet b.values q

/-- Phase A of the round trip: appending the events of a fragment to a
buffer succeeds and produces exactly the message pieces, slot contents,
and parameter bindings described by the specification functions. -/
theorem appendAll_spec (f : Frag) :
    ∀ (b : MessageBuffer) (top : Nat),
    b.stack.getLast? = some top →
    1 ≤ b.depth →
    f.nExprs ≤ b.params.length →
    (∀ k, b.order ≤ k → alGet b.events k = none) →
    top < b.order →
    ∃ b2, appendAll b f.events = some b2 ∧
      b2.params = b.params.drop f.nExprs ∧
      b2.string = b.string ++ f.pieces b.params b.order ∧
      b2.depth = b.depth ∧
      b2.stack = b.stack ∧
      b2.order = b.order + f.nElems ∧
      (∀ q, alGet b2.values q = valuesAfter f b q) ∧
      (∀ k, alGet b2.events k = eventsAfter f b top k) := by
  induction f with
  | nil =>
      intro b top hL hd hp hfresh htop
      refine ⟨b, by simp [appendAll, Frag.events], by simp [Frag.nExprs],
        by simp [Frag.pieces], rfl, rfl, by simp [Frag.nElems], ?_, ?_⟩
      · intro q
        simp [valuesAfter, Frag.nExprs, Frag.xprs, alGet]
      · intro k
        simp only [eventsAfter, Frag.slots, Frag.markers, alGet]
        split <;> rfl
  | txt s p r ih =>
      intro b top hL hd hp hfresh htop
      have hstep : b.append (Ev.text s p) = some
          { b with string := b.string ++ [s],
                   events := alPush b.events top none } := by
        simp [MessageBuffer.append, hL]
      set b1 : MessageBuffer :=
        { b with string := b.string ++ [s],
                 events := alPush b.events top none } with hb1
      have hfresh1 : ∀ k, b1.order ≤ k → alGet b1.events k = none := by
        intro k hk
        have hk2 : b.order ≤ k := hk
        have hkt : ¬(k = top) := by omega
        simp only [hb1, alGet_alPush, hkt, if_false]
        exact hfresh k hk2
      obtain ⟨b2, happ, hparams, hstring, hdepth, hstack, horder, hvals,
        hevents⟩ := ih b1 top hL hd hp hfresh1 htop
      refine ⟨b2, ?_, ?_, ?_, hdepth, hstack, horder, ?_, ?_⟩
      · simp only [Frag.events, appendAll, List.foldlM_cons]
        rw [hstep]
        exact happ
      · simpa [Frag.nExprs] using hparams
      · rw [hstring]
        simp [hb1, Frag.pieces]
      · intro q
        rw [hvals]
        simp [valuesAfter, hb1, Frag.nExprs, Frag.xprs]
      · intro k
        rw [hevents k]
        simp only [eventsAfter, hb1, Frag.slots, Frag.markers]
        by_cases hk : k = top
        · subst hk
          cases hsl : alGet (r.slots b.order) k with
          | some v => simp
          | none =>
              simp only [if_pos rfl]
              cases hrm : r.markers with
              | nil =>
                  simp [alGet_alPush]
              | cons m ms =>
                  simp only [alGet_alPush, if_pos rfl]
                  cases hbe : alGet b.events k <;> simp [hbe]
        · cases hsl : alGet (r.slots b.order) k with
          | some v => simp
          | none =>
              simp only [if_neg hk]
              rw [alGet_alPush]
              simp [hk]
  | xpr c p r ih =>
      intro b top hL hd hp hfresh htop
      match hps : b.params with
      | [] =>
          rw [hps] at hp
          simp [Frag.nExprs] at hp
      | p0 :: ps2 =>
      have hstep : b.append (Ev.expr c p) = some
          { b with params := ps2,
                   string := b.string ++ ["%(" ++ p0 ++ ")s"],
                   events := alPush b.events top none,
                   values := alSet b.values p0 (Ev.expr c p) } := by
        simp [MessageBuffer.append, hL, hps]
      set b1 : MessageBuffer :=
        { b with params := ps2,
                 string := b.string ++ ["%(" ++ p0 ++ ")s"],
                 events := alPush b.events top none,
                 values := alSet b.values p0 (Ev.expr c p) } with hb1
      have hp1 : r.nExprs ≤ b1.params.length := by
        rw [hps] at hp
        simp [Frag.nExprs] at hp
        show r.nExprs ≤ ps2.length
        omega
      have hfresh1 : ∀ k, b1.order ≤ k → alGet b1.events k = none := by
        intro k hk
        have hk2 : b.order ≤ k := hk
        have hkt : ¬(k = top) := by omega
        simp only [hb1, alGet_alPush, hkt, if_false]
        exact hfresh k hk2
      obtain ⟨b2, happ, hparams, hstring, hdepth, hstack, horder, hvals,
        hevents⟩ := ih b1 top hL hd hp1 hfresh1 htop
      refine ⟨b2, ?_, ?_, ?_, hdepth, hstack, horder, ?_, ?_⟩
      · simp only [Frag.events, appendAll, List.foldlM_cons]
        rw [hstep]
        exact happ
      · rw [hparams]
        simp [hb1, hps, Frag.nExprs]
        rw [Nat.add_comm 1 r.nExprs, List.drop_succ_cons]
      · rw [hstring]
        simp [hb1, hps, Frag.pieces, pholder]
      · intro q
        rw [hvals q]
        simp only [valuesAfter, hb1, hps, Frag.nExprs, Frag.xprs]
        rw [Nat.add_comm 1 r.nExprs, List.take_succ_cons, List.zip_cons_cons,
          List.reverse_cons, alGet_append]
        cases hz : alGet (List.zip (ps2.take r.nExprs) r.xprs).reverse q with
        | some v => simp
        | none =>
            simp only []
            by_cases hq : q = p0
            · subst hq
              simp [alGet, alGet_alSet]
            · simp [alGet, hq, alGet_alSet]
      · intro k
        rw [hevents k]
        simp only [eventsAfter, hb1, Frag.slots, Frag.markers]
        by_cases hk : k = top
        · subst hk
          cases hsl : alGet (r.slots b.order) k with
          | some v => simp
          | none =>
              simp only [if_pos rfl]
              cases hrm : r.markers with
              | nil => simp [alGet_alPush]
              | cons m ms =>
                  simp only [alGet_alPush, if_pos rfl]
                  cases hbe : alGet b.events k <;> simp [hbe]
        · cases hsl : alGet (r.slots b.order) k with
          | some v => simp
          | none =>
              simp only [if_neg hk]
              rw [alGet_alPush]
              simp [hk]
  | elem t a pst pe c r ihc ihr =>
      intro b top hL hd hp hfresh htop
      simp only [Frag.nExprs] at hp
      have hstep1 : b.append (Ev.start t a pst) = some
          { b with string := b.string ++ [strOpen b.order],
                   events := alPush b.events b.order (some (Ev.start t a pst)),
                   stack := b.stack ++ [b.order],
                   depth := b.depth + 1,
                   order := b.order + 1 } := by
        simp [MessageBuffer.append]
      set b1 : MessageBuffer :=
        { b with string := b.string ++ [strOpen b.order],
                 events := alPush b.events b.order (some (Ev.start t a pst)),
                 stack := b.stack ++ [b.order],
                 depth := b.depth + 1,
                 order := b.order + 1 } with hb1
      have hL1 : b1.stack.getLast? = some b.order := by
        show (b.stack ++ [b.order]).getLast? = some b.order
        simp
      have hd1 : 1 ≤ b1.depth := by
        show 1 ≤ b.depth + 1
        omega
      have hpc : c.nExprs ≤ b1.params.length := by
        show c.nExprs ≤ b.params.length
        omega
      have hfresh1 : ∀ k, b1.order ≤ k → alGet b1.events k = none := by
        intro k hk
        have hk2 : b.order + 1 ≤ k := hk
        have hne : ¬(k = b.order) := by omega
        show alGet (alPush b.events b.order (some (Ev.start t a pst))) k = none
        rw [alGet_alPush]
        simp only [hne, if_false]
        exact hfresh k (by omega)
      have htop1 : b.order < b1.order := by
        show b.order < b.order + 1
        omega
      obtain ⟨b2, happ2, hparams2, hstring2, hdepth2, hstack2, horder2,
        hvals2, hevents2⟩ := ihc b1 b.order hL1 hd1 hpc hfresh1 htop1
      have hbe0 : alGet b.events b.order = none := hfresh b.order (Nat.le_refl _)
      have hb1top : alGet b1.events b.order
          = some [some (Ev.start t a pst)] := by
        show alGet (alPush b.events b.order (some (Ev.start t a pst))) b.order
          = some [some (Ev.start t a pst)]
        rw [alGet_alPush]
        simp [hbe0]
      have hslot : alGet b2.events b.order =
          some (some (Ev.start t a pst) :: c.markers) := by
        rw [hevents2 b.order]
        simp only [eventsAfter]
        have hlow : alGet (c.slots b1.order) b.order = none :=
          slots_none_low c b1.order b.order
            (by show b.order < b.order + 1; omega)
        rw [hlow]
        simp only [if_pos rfl]
        cases hcm : c.markers with
        | nil => simp [hb1top]
        | cons m ms => simp [hb1top]
      have hL2 : b2.stack.getLast? = some b.order := by
        rw [hstack2]; exact hL1
      have hd2 : b2.depth = b.depth + 1 := hdepth2
      have hdnz : b2.depth - 1 ≠ 0 := by rw [hd2]; omega
      set b3 : MessageBuffer :=
        { b2 with depth := b2.depth - 1,
                  events := alSet b2.events b.order
                    ((some (Ev.start t a pst) :: c.markers)
                      ++ [some (Ev.stop t pe)]),
                  string := b2.string ++ ["]"],
                  stack := b2.stack.dropLast } with hb3
      have hstep2 : b2.append (Ev.stop t pe) = some b3 := by
        rw [hb3]
        simp [MessageBuffer.append, hL2, hslot, hdnz]
      have hord2 : b2.order = b.order + 1 + c.nElems := horder2
      have hord3 : b3.order = b.order + 1 + c.nElems := hord2
      have hL3 : b3.stack.getLast? = some top := by
        show (b2.stack.dropLast).getLast? = some top
        rw [hstack2]
        show ((b.stack ++ [b.order]).dropLast).getLast? = some top
        rw [List.dropLast_concat]
        exact hL
      have hd3 : 1 ≤ b3.depth := by
        show 1 ≤ b2.depth - 1
        rw [hd2]; omega
      have hpb2 : b2.params = b.params.drop c.nExprs := hparams2
      have hpr : r.nExprs ≤ b3.params.length := by
        show r.nExprs ≤ b2.params.length
        rw [hpb2, List.length_drop]
        omega
      have hb3ev : ∀ j, alGet (alSet b2.events b.order
          ((some (Ev.start t a pst) :: c.markers) ++ [some (Ev.stop t pe)])) j =
          if j = b.order
          then some (some (Ev.start t a pst)
            :: (c.markers ++ [some (Ev.stop t pe)]))
          else eventsAfter c b1 b.order j := by
        intro j
        rw [alGet_alSet]
        by_cases hj : j = b.order
        · simp [hj]
        · simp only [hj, if_false]
          exact hevents2 j
      have hev2slot : ∀ j v, alGet (c.slots (b.order + 1)) j = some v →
          eventsAfter c b1 b.order j = some v := by
        intro j v hcj
        have hcj2 : alGet (c.slots b1.order) j = some v := hcj
        simp only [eventsAfter, hcj, hcj2]
      have hev2high : ∀ j, ¬(j = b.order) →
          alGet (c.slots (b.order + 1)) j = none →
          eventsAfter c b1 b.order j = alGet b.events j := by
        intro j hj hcj
        have hcj2 : alGet (c.slots b1.order) j = none := hcj
        simp only [eventsAfter, hcj, hcj2, hj, if_false]
        show alGet (alPush b.events b.order (some (Ev.start t a pst))) j
          = alGet b.events j
        rw [alGet_alPush]
        simp [hj]
      have hfresh3 : ∀ k, b3.order ≤ k → alGet b3.events k = none := by
        intro k hk
        have hk2 : b2.order ≤ k := hk
        have hkbig : b.order + 1 + c.nElems ≤ k := by rw [← hord2]; exact hk2
        have hne : ¬(k = b.order) := by omega
        show alGet (alSet b2.events b.order
          ((some (Ev.start t a pst) :: c.markers) ++ [some (Ev.stop t pe)])) k
          = none
        rw [hb3ev k]
        simp only [hne, if_false]
        rw [hev2high k hne (slots_none_high c (b.order + 1) k (by omega))]
        exact hfresh k (by omega)
      have htop3 : top < b3.order := by
        rw [hord3]; omega
      obtain ⟨b4, happ4, hparams4, hstring4, hdepth4, hstack4, horder4,
        hvals4, hevents4⟩ := ihr b3 top hL3 hd3 hpr hfresh3 htop3
      refine ⟨b4, ?_, ?_, ?_, ?_, ?_, ?_, ?_, ?_⟩
      · show (Frag.elem t a pst pe c r).events.foldlM MessageBuffer.append b
          = some b4
        simp only [Frag.events, List.foldlM_cons, List.foldlM_append]
        rw [hstep1]
        show c.events.foldlM MessageBuffer.append b1 >>= _ = some b4
        have h2 : c.events.foldlM MessageBuffer.append b1 = some b2 := happ2
        rw [h2]
        show (Ev.stop t pe :: r.events).foldlM MessageBuffer.append b2 = some b4
        rw [List.foldlM_cons, hstep2]
        exact happ4
      · simp only [Frag.nExprs]
        rw [hparams4]
        show b2.params.drop r.nExprs = b.params.drop (c.nExprs + r.nExprs)
        rw [hpb2, List.drop_drop]
      · simp only [Frag.pieces]
        rw [hstring4]
        have e1 : b3.string
            = (b.string ++ [strOpen b.order])
              ++ c.pieces b.params (b.order + 1) ++ ["]"] := by
          show b2.string ++ ["]"] = _
          rw [hstring2]
        have e2 : b3.params = b.params.drop c.nExprs := hpb2
        rw [e1, e2, hord3]
        simp
      · rw [hdepth4]
        show b2.depth - 1 = b.depth
        rw [hd2]; omega
      · rw [hstack4]
        show b2.stack.dropLast = b.stack
        rw [hstack2]
        show (b.stack ++ [b.order]).dropLast = b.stack
        rw [List.dropLast_concat]
      · rw [horder4, hord3]
        simp only [Frag.nElems]
        omega
      · intro q
        rw [hvals4 q]
        simp only [valuesAfter, Frag.nExprs, Frag.xprs]
        have hlen : (b.params.take c.nExprs).length = c.xprs.length := by
          rw [xprs_length, List.length_take]
          omega
        rw [List.take_add, List.zip_append hlen, List.reverse_append,
          alGet_append]
        have hbp3 : b3.params = b.params.drop c.nExprs := hpb2
        rw [hbp3]
        cases hz : alGet
            (((b.params.drop c.nExprs).take r.nExprs).zip r.xprs).reverse q with
        | some v => simp
        | none =>
            simp only []
            have h23 : alGet b3.values q = alGet b2.values q := rfl
            rw [h23, hvals2 q]
            simp only [valuesAfter, hb1]
      · intro k
        rw [hevents4 k]
        simp only [eventsAfter, Frag.slots, Frag.markers, hord2, hord3]
        by_cases hk0 : k = b.order
        · have hlowr : alGet (r.slots (b.order + 1 + c.nElems)) k = none :=
            slots_none_low r _ k (by omega)
          have hkt : ¬(k = top) := by omega
          rw [hlowr]
          simp only [hkt, if_false]
          rw [hb3ev k]
          simp [alGet, hk0]
        · cases hc : alGet (c.slots (b.order + 1)) k with
          | some v =>
              have hbounds := slots_bounds c (b.order + 1) (k, v) (alGet_mem hc)
              have hlowr : alGet (r.slots (b.order + 1 + c.nElems)) k = none :=
                slots_none_low r _ k (by omega)
              have hkt : ¬(k = top) := by omega
              rw [hlowr]
              simp only [hkt, if_false]
              rw [hb3ev k]
              simp only [hk0, if_false]
              rw [hev2slot k v hc]
              simp [alGet, hk0, alGet_append, hc]
          | none =>
              have hbev : eventsAfter c b1 b.order k = alGet b.events k :=
                hev2high k hk0 hc
              cases hr : alGet (r.slots (b.order + 1 + c.nElems)) k with
              | some w =>
                  simp [alGet, hk0, alGet_append, hc, hr]
              | none =>
                  have hcons : alGet ((b.order,
                      some (Ev.start t a pst)
                        :: (c.markers ++ [some (Ev.stop t pe)])) ::
                      (c.slots (b.order + 1)
                        ++ r.slots (b.order + 1 + c.nElems))) k = none := by
                    simp [alGet, hk0, alGet_append, hc, hr]
                  rw [hcons]
                  have htne : ¬(top = b.order) := by omega
                  have hbevt : eventsAfter c b1 b.order top = alGet b.events top :=
                    hev2high top htne
                      (slots_none_low c (b.order + 1) top (by omega))
                  simp only [hb3ev, hk0, htne, if_false, hbev, hbevt]

@[simp] theorem asString_data (s : String) : s.data.asString = s := rfl

/-- Characters transparent to the bracket scanner. -/
def nbChar (c : Char) : Bool := !(c = '[' || c = ']')

theorem isDigit_nb {c : Char} (h : c.isDigit = true) : nbChar c = true := by
  simp only [nbChar, Bool.not_eq_true', Bool.or_eq_false_iff,
    decide_eq_false_iff_not]
  refine ⟨fun he => ?_, fun he => ?_⟩
  · subst he; exact absurd h (by decide)
  · subst he; exact absurd h (by decide)

theorem wordChar_nb {c : Char} (h : wordChar c = true) : nbChar c = true := by
  simp only [nbChar, Bool.not_eq_true', Bool.or_eq_false_iff,
    decide_eq_false_iff_not]
  refine ⟨fun he => ?_, fun he => ?_⟩
  · subst he; exact absurd h (by decide)
  · subst he; exact absurd h (by decide)

theorem safeChar_nb {c : Char} (h : safeChar c = true) : nbChar c = true := by
  simp only [safeChar, Bool.not_eq_true', Bool.or_eq_false_iff] at h
  simp [nbChar, h.1.1, h.1.2]

theorem digitChar_isDigit (d : Nat) : (digitChar d).isDigit = true := by
  unfold digitChar
  split <;> decide

theorem digitChar_toNat (d : Nat) (h : d < 10) :
    (digitChar d).toNat - 48 = d := by
  interval_cases d <;> decide

theorem natDigitsGo_spec :
    ∀ (fuel n : Nat) (acc : List Char), n < 10 ^ fuel →
    0 < fuel →
    ∃ ds, natDigitsGo fuel n acc = ds ++ acc ∧ ds ≠ [] ∧
      (∀ c ∈ ds, c.isDigit = true) ∧
      ∀ a, ds.foldl (fun a c => 10 * a + (c.toNat - 48)) a
        = a * 10 ^ ds.length + n := by
  intro fuel
  induction fuel with
  | zero => intro n acc h h0; omega
  | succ fuel ih =>
      intro n acc h h0
      by_cases hn : n < 10
      · refine ⟨[digitChar n], by simp [natDigitsGo, hn], by simp, ?_, ?_⟩
        · intro c hc
          rw [List.mem_singleton] at hc
          subst hc
          exact digitChar_isDigit n
        · intro a
          simp [List.foldl, digitChar_toNat n hn]
          omega
      · have hdiv : n / 10 < 10 ^ fuel := by
          rw [pow_succ] at h
          exact (Nat.div_lt_iff_lt_mul (by omega)).mpr h
        have hfpos : 0 < fuel := by
          rcases Nat.eq_zero_or_pos fuel with hf | hf
          · subst hf
            simp at hdiv
            omega
          · exact hf
        obtain ⟨ds, hgo, hne, hdig, hval⟩ :=
          ih (n / 10) (digitChar (n % 10) :: acc) hdiv hfpos
        refine ⟨ds ++ [digitChar (n % 10)], ?_, by simp, ?_, ?_⟩
        · simp only [natDigitsGo, if_neg hn, hgo, List.append_assoc,
            List.singleton_append]
        · intro c hc
          rcases List.mem_append.mp hc with h1 | h1
          · exact hdig c h1
          · rw [List.mem_singleton] at h1
            subst h1
            exact digitChar_isDigit _
        · intro a
          rw [List.foldl_append, hval a]
          simp [digitChar_toNat (n % 10) (Nat.mod_lt n (by omega)),
            pow_succ]
          ring_nf
          omega

theorem natDigits_spec (n : Nat) :
    natDigits n ≠ [] ∧ (∀ c ∈ natDigits n, c.isDigit = true) ∧
      digitsVal (natDigits n) = n := by
  have hbound : n < 10 ^ (n + 1) := by
    calc n < 2 ^ n := Nat.lt_two_pow n
    _ ≤ 10 ^ n := Nat.pow_le_pow_left (by omega) n
    _ ≤ 10 ^ (n + 1) := Nat.pow_le_pow_right (by omega) (by omega)
  obtain ⟨ds, hgo, hne, hdig, hval⟩ :=
    natDigitsGo_spec (n + 1) n [] hbound (by omega)
  unfold natDigits
  rw [hgo]
  simp only [List.append_nil]
  exact ⟨hne, hdig, by unfold digitsVal; rw [hval 0]; omega⟩

theorem takeDigits_prefix :
    ∀ (ds rest : List Char), (∀ c ∈ ds, c.isDigit = true) →
    takeDigits (ds ++ ':' :: rest) = (ds, ':' :: rest) := by
  intro ds
  induction ds with
  | nil => intro rest _; simp [takeDigits]
  | cons d ds ih =>
      intro rest h
      have hd : d.isDigit = true := h d (List.mem_cons_self d ds)
      have ih2 := ih rest (fun c hc => h c (List.mem_cons_of_mem d hc))
      simp [takeDigits, hd, ih2]

theorem strOpen_data (n : Nat) :
    (strOpen n).data = '[' :: (natDigits n ++ [':']) := by
  simp [strOpen, String.data_append]

theorem regexSearch_open (n : Nat) (rest : List Char) :
    regexSearch ((strOpen n).data ++ rest) = some ([], some n, rest) := by
  obtain ⟨hne, hdig, hval⟩ := natDigits_spec n
  have htd := takeDigits_prefix (natDigits n) rest hdig
  rw [strOpen_data]
  cases hds : natDigits n with
  | nil => exact absurd hds hne
  | cons d ds =>
      rw [hds] at htd hval
      rw [List.cons_append] at htd
      simp [regexSearch, matchOpen, htd, hval]

theorem regexSearch_close (rest : List Char) :
    regexSearch (']' :: rest) = some ([], none, rest) := by
  simp [regexSearch]

theorem regexSearch_skip :
    ∀ (cs : List Char), (∀ c ∈ cs, nbChar c = true) → ∀ rest,
    regexSearch (cs ++ rest) =
      (regexSearch rest).map (fun q => (cs ++ q.1, q.2.1, q.2.2)) := by
  intro cs
  induction cs with
  | nil =>
      intro _ rest
      cases h : regexSearch rest with
      | none => simp [h]
      | some q => simp [h]
  | cons c cs ih =>
      intro hnb rest
      have hc : nbChar c = true := hnb c (List.mem_cons_self c cs)
      simp only [nbChar, Bool.not_eq_true', Bool.or_eq_false_iff,
        decide_eq_false_iff_not] at hc
      have ih2 := ih (fun x hx => hnb x (List.mem_cons_of_mem c hx)) rest
      simp only [List.cons_append, regexSearch, if_neg hc.1, if_neg hc.2,
        List.append_eq]
      rw [ih2]
      cases h : regexSearch rest with
      | none => simp [h]
      | some q => simp [h]

theorem regexSearch_none (cs : List Char)
    (h : ∀ c ∈ cs, nbChar c = true) : regexSearch cs = none := by
  have := regexSearch_skip cs h []
  simpa [regexSearch] using this

theorem empty_data : ("" : String).data = [] := rfl

theorem data_eq_nil_iff (s : String) : s.data = [] ↔ s = "" := by
  constructor
  · intro h
    have := congrArg List.asString h
    simpa using this
  · intro h
    subst h
    rfl

theorem strConcat_data (l : List String) :
    (strConcat l).data = (l.map String.data).flatten := by
  induction l with
  | nil => rfl
  | cons s rest ih => simp [strConcat, String.data_append, ih]

theorem safeText_nb {s : String} (hs : safeText s = true) :
    ∀ c ∈ s.data, nbChar c = true := by
  intro c hc
  simp only [safeText, Bool.and_eq_true] at hs
  exact safeChar_nb (List.all_eq_true.mp hs.2 c hc)

theorem pholder_nb {p : String} (hw : wordStr p = true) :
    ∀ c ∈ (pholder p).data, nbChar c = true := by
  intro c hc
  simp only [wordStr, Bool.and_eq_true] at hw
  simp only [pholder, String.data_append,
    show ("%(" : String).data = ['%', '('] from rfl,
    show (")s" : String).data = [')', 's'] from rfl,
    List.mem_append, List.mem_cons] at hc
  rcases hc with ((h | h) | h) | h | h | h
  · subst h; decide
  · rcases h with h | h
    · subst h; decide
    · cases h
  · exact wordChar_nb (List.all_eq_true.mp hw.2 c h)
  · subst h; decide
  · subst h; decide
  · cases h

/-- All texts of the fragment are free of the scanner metacharacters. -/
def Frag.safe : Frag → Bool
  | .nil => true
  | .txt s _ r => safeText s && r.safe
  | .xpr _ _ r => r.safe
  | .elem _ _ _ _ c r => c.safe && r.safe

theorem seqOk_safe (f : Frag) :
    ∀ strict prev, seqOk strict f prev = true → f.safe = true := by
  induction f with
  | nil => intro strict prev _; rfl
  | txt s p r ih =>
      intro strict prev h
      simp only [seqOk, Bool.and_eq_true] at h
      simp [Frag.safe, h.1.2, ih strict (some true) h.2]
  | xpr code p r ih =>
      intro strict prev h
      simp only [seqOk, Bool.and_eq_true] at h
      simpa [Frag.safe] using ih strict (some false) h.2
  | elem t a pst pe c r ihc ihr =>
      intro strict prev h
      simp only [seqOk, Bool.and_eq_true] at h
      have hr := ihr strict none h.2
      have hcsafe : c.safe = true := by
        cases c with
        | nil => rfl
        | txt s2 p2 r2 => exact ihc true none h.1.2
        | xpr c2 p2 r2 => exact ihc true none h.1.2
        | elem t2 a2 ps2 pe2 c2 r2 => exact ihc true none h.1.2
      simp [Frag.safe, hcsafe, hr]

theorem partsPre_pend_nb (f : Frag) :
    ∀ (pend : String) (ps : List String) (o n : Nat),
    f.safe = true → (∀ c ∈ pend.data, nbChar c = true) →
    (∀ p ∈ ps, wordStr p = true) →
    ∀ ch ∈ (f.partsPre pend ps o n).2.data, nbChar ch = true := by
  induction f with
  | nil =>
      intro pend ps o n hs hpend hw ch hch
      simp only [Frag.partsPre] at hch
      exact hpend ch hch
  | txt s p r ih =>
      intro pend ps o n hs hpend hw ch hch
      simp only [Frag.safe, Bool.and_eq_true] at hs
      refine ih (pend ++ s) ps o n hs.2 ?_ hw ch
        (by simpa [Frag.partsPre] using hch)
      intro x hx
      rw [String.data_append] at hx
      rcases List.mem_append.mp hx with h1 | h1
      · exact hpend x h1
      · exact safeText_nb hs.1 x h1
  | xpr code p r ih =>
      intro pend ps o n hs hpend hw
      cases ps with
      | nil =>
          intro ch hch
          simp only [Frag.partsPre] at hch
          exact hpend ch hch
      | cons q ps2 =>
          intro ch hch
          simp only [Frag.partsPre] at hch
          refine ih (pend ++ pholder q) ps2 o n hs ?_
            (fun p hp => hw p (List.mem_cons_of_mem q hp)) ch hch
          intro x hx
          rw [String.data_append] at hx
          rcases List.mem_append.mp hx with h1 | h1
          · exact hpend x h1
          · exact pholder_nb (hw q (List.mem_cons_self q ps2)) x h1
  | elem t a pst pe c r ihc ihr =>
      intro pend ps o n hs hpend hw ch hch
      simp only [Frag.safe, Bool.and_eq_true] at hs
      simp only [Frag.partsPre] at hch
      exact ihr "" (ps.drop c.nExprs) o (n + 1 + c.nElems) hs.2
        (by intro x hx; rw [empty_data] at hx; cases hx)
        (fun p hp => hw p (List.drop_subset _ _ hp)) ch hch

theorem parseGo_fuel :
    ∀ (f1 : Nat) (s : List Char) (f2 : Nat) (stack : List Nat)
      (parts : List (Nat × String)),
    s.length < f1 → s.length < f2 →
    parseGo f1 s stack parts = parseGo f2 s stack parts := by
  intro f1
  induction f1 with
  | zero => intro s f2 stack parts h1 h2; omega
  | succ f1 ih =>
      intro s f2 stack parts h1 h2
      cases f2 with
      | zero => omega
      | succ f2 =>
          rcases hr : regexSearch s with _ | ⟨pre, g, suf⟩
          · simp [parseGo, hr]
          · have hlen := regexSearch_len hr
            rcases hstack : stack.getLast? with _ | top
            · simp [parseGo, hr, hstack]
            · cases g with
              | some n =>
                  simp only [parseGo, hr, hstack]
                  exact ih suf f2 _ _ (by omega) (by omega)
              | none =>
                  simp only [parseGo, hr, hstack]
                  by_cases hs2 : stack.dropLast = []
                  · simp [hs2]
                  · simp only [hs2, if_neg, ite_false]
                    exact ih suf f2 _ _ (by omega) (by omega)

/-- One parser step consuming a pending run of plain text and an opening
`[n:` bracket. -/
theorem parseGo_step_open (fuel n : Nat) (pend : String)
    (hpend : ∀ c ∈ pend.data, nbChar c = true) (Z : List Char)
    (stack : List Nat) (parts : List (Nat × String)) (o : Nat)
    (hst : stack.getLast? = some o) :
    parseGo (fuel + 1) (pend.data ++ ((strOpen n).data ++ Z)) stack parts
      = parseGo fuel Z (stack ++ [n])
        (parts ++ (if pend ≠ "" ∨ o ≠ 0 then [(o, pend)] else [])) := by
  have hsearch : regexSearch (pend.data ++ ((strOpen n).data ++ Z))
      = some (pend.data, some n, Z) := by
    rw [regexSearch_skip pend.data hpend, regexSearch_open]
    simp
  simp only [parseGo, hsearch, hst]
  congr 1
  simp only [ne_eq, data_eq_nil_iff, asString_data]
  split
  · rfl
  · simp

/-- One parser step consuming a pending run of plain text and a closing
bracket, popping slot `n` off the stack. -/
theorem parseGo_step_close (fuel : Nat) (pend : String)
    (hpend : ∀ c ∈ pend.data, nbChar c = true) (Z : List Char)
    (stack : List Nat) (n : Nat) (parts : List (Nat × String))
    (hne : stack ≠ []) (hn : 1 ≤ n) :
    parseGo (fuel + 1) (pend.data ++ (']' :: Z)) (stack ++ [n]) parts
      = parseGo fuel Z stack (parts ++ [(n, pend)]) := by
  have hsearch : regexSearch (pend.data ++ (']' :: Z))
      = some (pend.data, none, Z) := by
    rw [regexSearch_skip pend.data hpend, regexSearch_close]
    simp
  have hgl : (stack ++ [n]).getLast? = some n := by simp
  simp only [parseGo, hsearch, hgl]
  rw [if_pos (Or.inr (by omega : n ≠ 0))]
  rw [List.dropLast_concat, if_neg hne]
  simp [asString_data]

/-- Scanning the rendered pieces of a fragment: the bracket parser emits
exactly the parts predicted by `Frag.partsPre` and is left with the final
pending text. -/
theorem parseGo_seq (f : Frag) :
    ∀ (pend : String) (ps : List String) (o n : Nat) (stack : List Nat)
      (parts : List (Nat × String)) (suffix : List Char) (fuel : Nat),
    stack.getLast? = some o →
    f.safe = true →
    (∀ c ∈ pend.data, nbChar c = true) →
    (∀ p ∈ ps, wordStr p = true) →
    f.nExprs ≤ ps.length →
    1 ≤ n →
    parseGo (fuel + 2 * f.nElems)
        (pend.data ++ ((strConcat (f.pieces ps n)).data ++ suffix))
        stack parts
      = parseGo fuel ((f.partsPre pend ps o n).2.data ++ suffix) stack
          (parts ++ (f.partsPre pend ps o n).1) := by
  induction f with
  | nil =>
      intro pend ps o n stack parts suffix fuel hst hs hpend hw hnE hn
      simp [Frag.pieces, Frag.partsPre, Frag.nElems, strConcat, empty_data]
  | txt s p r ih =>
      intro pend ps o n stack parts suffix fuel hst hs hpend hw hnE hn
      simp only [Frag.safe, Bool.and_eq_true] at hs
      have hpend2 : ∀ c ∈ (pend ++ s).data, nbChar c = true := by
        intro x hx
        rw [String.data_append] at hx
        rcases List.mem_append.mp hx with h1 | h1
        · exact hpend x h1
        · exact safeText_nb hs.1 x h1
      have hrec := ih (pend ++ s) ps o n stack parts suffix fuel hst hs.2
        hpend2 hw (by simpa [Frag.nExprs] using hnE) hn
      simp only [Frag.pieces, Frag.partsPre, Frag.nElems, strConcat,
        String.data_append, List.append_assoc] at hrec ⊢
      exact hrec
  | xpr code p r ih =>
      intro pend ps o n stack parts suffix fuel hst hs hpend hw hnE hn
      cases ps with
      | nil => simp [Frag.nExprs] at hnE
      | cons q ps2 =>
          have hwq : wordStr q = true := hw q (List.mem_cons_self q ps2)
          have hpend2 : ∀ c ∈ (pend ++ pholder q).data, nbChar c = true := by
            intro x hx
            rw [String.data_append] at hx
            rcases List.mem_append.mp hx with h1 | h1
            · exact hpend x h1
            · exact pholder_nb hwq x h1
          have hrec := ih (pend ++ pholder q) ps2 o n stack parts suffix fuel
            hst hs hpend2 (fun p2 hp => hw p2 (List.mem_cons_of_mem q hp))
            (by simp [Frag.nExprs] at hnE; omega) hn
          simp only [Frag.pieces, Frag.partsPre, Frag.nElems, strConcat,
            String.data_append, List.append_assoc] at hrec ⊢
          exact hrec
  | elem t a pst pe c r ihc ihr =>
      intro pend ps o n stack parts suffix fuel hst hs hpend hw hnE hn
      simp only [Frag.safe, Bool.and_eq_true] at hs
      simp only [Frag.nExprs] at hnE
      have hstackne : stack ≠ [] := by
        intro he
        rw [he] at hst
        simp at hst
      have hnbe : ∀ x ∈ ("" : String).data, nbChar x = true := by
        intro x hx
        rw [empty_data] at hx
        cases hx
      have hCnb := partsPre_pend_nb c "" ps n (n + 1) hs.1 hnbe hw
      have hfuel : fuel + 2 * (Frag.elem t a pst pe c r).nElems
          = (fuel + 2 * r.nElems + 1 + 2 * c.nElems) + 1 := by
        simp only [Frag.nElems]
        ring
      have hstr : pend.data ++
          ((strConcat ((Frag.elem t a pst pe c r).pieces ps n)).data ++ suffix)
          = pend.data ++ ((strOpen n).data ++
            ((strConcat (c.pieces ps (n + 1))).data ++ (']' ::
              ((strConcat (r.pieces (ps.drop c.nExprs)
                (n + 1 + c.nElems))).data ++ suffix)))) := by
        simp [Frag.pieces, strConcat_data, String.data_append,
          List.append_assoc, show ("]" : String).data = [']'] from rfl]
      rw [hfuel, hstr,
        parseGo_step_open (fuel + 2 * r.nElems + 1 + 2 * c.nElems) n pend
          hpend _ stack parts o hst]
      have hgl : (stack ++ [n]).getLast? = some n := by simp
      have hrecC := ihc "" ps n (n + 1) (stack ++ [n])
        (parts ++ (if pend ≠ "" ∨ o ≠ 0 then [(o, pend)] else []))
        (']' :: ((strConcat (r.pieces (ps.drop c.nExprs)
          (n + 1 + c.nElems))).data ++ suffix))
        (fuel + 2 * r.nElems + 1) hgl hs.1 hnbe hw (by omega) (by omega)
      simp only [empty_data, List.nil_append] at hrecC
      rw [hrecC,
        parseGo_step_close (fuel + 2 * r.nElems) (c.partsPre "" ps n (n + 1)).2
          hCnb _ stack n _ hstackne hn]
      have hrecR := ihr "" (ps.drop c.nExprs) o (n + 1 + c.nElems) stack
        (parts ++ (if pend ≠ "" ∨ o ≠ 0 then [(o, pend)] else []) ++
          (c.partsPre "" ps n (n + 1)).1 ++
          [(n, (c.partsPre "" ps n (n + 1)).2)]) suffix fuel
        hst hs.2 hnbe (fun p2 hp => hw p2 (List.drop_subset _ _ hp))
        (by rw [List.length_drop]; omega) (by omega)
      simp only [empty_data, List.nil_append] at hrecR
      rw [hrecR]
      simp only [Frag.partsPre]
      simp [List.append_assoc]

/-- `parse_msg` of a rendered fragment succeeds and returns exactly the
parts predicted by `Frag.partsPre`, with the final pending text attached
to the root slot when non-empty. -/
theorem parse_msg_frag (f : Frag) (ps : List String)
    (hs : f.safe = true) (hw : ∀ p ∈ ps, wordStr p = true)
    (hnE : f.nExprs ≤ ps.length) :
    parse_msg (f.render ps) = some
      ((f.partsPre "" ps 0 1).1 ++
        (if (f.partsPre "" ps 0 1).2 = "" then []
         else [(0, (f.partsPre "" ps 0 1).2)])) := by
  have hnbe : ∀ x ∈ ("" : String).data, nbChar x = true := by
    intro x hx
    rw [empty_data] at hx
    cases hx
  have hseq := parseGo_seq f "" ps 0 1 [0] [] []
    ((f.render ps).data.length + 1) (by rfl) hs hnbe hw hnE (by omega)
  simp only [empty_data, List.nil_append, List.append_nil] at hseq
  unfold parse_msg
  rw [parseGo_fuel ((f.render ps).data.length + 1) (f.render ps).data
    ((f.render ps).data.length + 1 + 2 * f.nElems) [0] [] (by omega)
    (by omega)]
  simp only [Frag.render] at hseq ⊢
  rw [hseq]
  have hpnb := partsPre_pend_nb f "" ps 0 1 hs hnbe hw
  have hnone : regexSearch (f.partsPre "" ps 0 1).2.data = none :=
    regexSearch_none _ hpnb
  simp only [parseGo, hnone,
    show ([0] : List Nat).getLast? = some 0 from rfl]
  by_cases hp : (f.partsPre "" ps 0 1).2 = ""
  · rw [hp]
    simp [empty_data]
  · rw [if_neg (fun hh => hp ((data_eq_nil_iff _).mp hh))]
    simp [hp, asString_data]

theorem matchPercent_ne (c : Char) (cs : List Char) (h : ¬(c = '%')) :
    matchPercent (c :: cs) = none := by
  unfold matchPercent
  split
  · rename_i rest heq
    simp_all
  · rfl

theorem takeWord_front :
    ∀ (ws rest : List Char), (∀ c ∈ ws, wordChar c = true) →
    takeWord (ws ++ ')' :: rest) = (ws, ')' :: rest) := by
  intro ws
  induction ws with
  | nil => intro rest _; simp [takeWord, wordChar]
  | cons w ws ih =>
      intro rest h
      have hw : wordChar w = true := h w (List.mem_cons_self w ws)
      have ih2 := ih rest (fun c hc => h c (List.mem_cons_of_mem w hc))
      simp [takeWord, hw, ih2]

theorem matchPercent_pholder {p : String} (hw : wordStr p = true)
    (cs : List Char) :
    matchPercent ((pholder p).data ++ cs) = some (p, cs) := by
  simp only [wordStr, Bool.and_eq_true, decide_eq_true_eq] at hw
  have hph : (pholder p).data ++ cs
      = '%' :: '(' :: (p.data ++ ')' :: 's' :: cs) := by
    simp [pholder, String.data_append,
      show ("%(" : String).data = ['%', '('] from rfl,
      show (")s" : String).data = [')', 's'] from rfl]
  rw [hph]
  simp only [matchPercent]
  rw [takeWord_front p.data ('s' :: cs) (List.all_eq_true.mp hw.2)]
  cases hpd : p.data with
  | nil => exact absurd ((data_eq_nil_iff p).mp hpd) hw.1
  | cons c cs2 =>
      have hps : (c :: cs2).asString = p := by
        rw [← hpd]
        exact asString_data p
      simp [hps]

theorem reSplitGo_safe :
    ∀ (s cs acc : List Char) (fuel : Nat), (∀ c ∈ s, ¬(c = '%')) →
    reSplitGo (s.length + fuel) acc (s ++ cs)
      = reSplitGo fuel (s.reverse ++ acc) cs := by
  intro s
  induction s with
  | nil => intro cs acc fuel _; simp
  | cons c s ih =>
      intro cs acc fuel h
      have hc := h c (List.mem_cons_self c s)
      have : (c :: s).length + fuel = (s.length + fuel) + 1 := by
        simp
        omega
      rw [this]
      simp only [List.cons_append, reSplitGo, List.append_eq,
        matchPercent_ne c (s ++ cs) hc]
      rw [ih cs (c :: acc) fuel (fun x hx => h x (List.mem_cons_of_mem c hx))]
      simp

theorem reSplitGo_ph {p : String} (hw : wordStr p = true)
    (cs acc : List Char) (fuel : Nat) :
    reSplitGo (fuel + 1) acc ((pholder p).data ++ cs)
      = acc.reverse.asString :: p :: reSplitGo fuel [] cs := by
  have hph : (pholder p).data ++ cs
      = '%' :: ('(' :: (p.data ++ ')' :: 's' :: cs)) := by
    simp [pholder, String.data_append,
      show ("%(" : String).data = ['%', '('] from rfl,
      show (")s" : String).data = [')', 's'] from rfl]
  rw [hph]
  simp only [reSplitGo]
  rw [show '%' :: ('(' :: (p.data ++ ')' :: 's' :: cs))
    = (pholder p).data ++ cs from hph.symm]
  rw [matchPercent_pholder hw]

/-- A unit of a pending marker run: a safe text or a named placeholder. -/
inductive RItem : Type where
  | rtxt (s : String)
  | rxpr (p : String)

/-- The string a run renders to. -/
def runStr : List RItem → String
  | [] => ""
  | .rtxt s :: us => s ++ runStr us
  | .rxpr p :: us => pholder p ++ runStr us

/-- The replay of a run: fresh TEXT events for texts, `values` lookups for
placeholders (`none` models the `KeyError`). -/
def runEvs (vals : List (String × Ev)) : List RItem → Option (List Ev)
  | [] => some []
  | .rtxt s :: us => (runEvs vals us).map (Ev.text s (none, -1, -1) :: ·)
  | .rxpr p :: us =>
      match alGet vals p with
      | none => none
      | some ev => (runEvs vals us).map (ev :: ·)

/-- Well-formed run: safe non-empty texts, word-character names, and no
text directly following a text (`prev` is the kind of the previous item). -/
def runOkb : List RItem → Option Bool → Bool
  | [], _ => true
  | .rtxt s :: us, prev =>
      (prev ≠ some true) && safeText s && runOkb us (some true)
  | .rxpr p :: us, _ => wordStr p && runOkb us (some false)

/-- The kind of the last item of a run, defaulting to `prev` when empty. -/
def runLastD : List RItem → Option Bool → Option Bool
  | [], prev => prev
  | .rtxt _ :: us, _ => runLastD us (some true)
  | .rxpr _ :: us, _ => runLastD us (some false)

/-- The splitter loop over a rendered run: splitting and interpolating the
concatenated text yields the run replay, prefixed by a TEXT event for any
accumulated plain text. -/
theorem splitRun_go (vals : List (String × Ev)) :
    ∀ (us : List RItem) (prev : Option Bool) (acc : List Char) (fuel : Nat),
    runOkb us prev = true →
    (acc ≠ [] → prev = some true) →
    emitSplit vals
      (reSplitGo ((runStr us).data.length + fuel + 1) acc (runStr us).data)
      false
      = (runEvs vals us).map
          (fun evs => (if acc = [] then []
            else [Ev.text acc.reverse.asString (none, -1, -1)]) ++ evs) := by
  intro us
  induction us with
  | nil =>
      intro prev acc fuel _ _
      simp only [runStr, empty_data, List.length_nil, Nat.zero_add, reSplitGo,
        runEvs]
      by_cases ha : acc = []
      · subst ha
        simp [emitSplit]
      · have hne : acc.reverse.asString ≠ "" := by
          simp [asString_eq_empty, ha]
        simp [emitSplit, hne, ha]
  | cons u us ih =>
      cases u with
      | rtxt s =>
          intro prev acc fuel hok hacc
          simp only [runOkb, Bool.and_eq_true, decide_eq_true_eq] at hok
          have hprev : prev ≠ some true := hok.1.1
          have hacc2 : acc = [] := by
            by_contra ha
            exact hprev (hacc ha)
          subst hacc2
          have hsafe := hok.1.2
          simp only [safeText, Bool.and_eq_true, decide_eq_true_eq] at hsafe
          have hsa : ∀ c ∈ s.data, ¬(c = '%') := by
            intro c hc he
            subst he
            exact absurd (List.all_eq_true.mp hsafe.2 _ hc) (by decide)
          have hsne : s.data ≠ [] := fun hh => hsafe.1 ((data_eq_nil_iff s).mp hh)
          simp only [runStr, String.data_append]
          rw [show (s.data ++ (runStr us).data).length + fuel + 1
            = s.data.length + ((runStr us).data.length + fuel + 1) from by
              simp only [List.length_append]; omega]
          rw [reSplitGo_safe s.data (runStr us).data [] _ hsa, List.append_nil]
          rw [ih (some true) s.data.reverse fuel hok.2 (fun _ => rfl)]
          have hrne : s.data.reverse ≠ [] := by simp [hsne]
          simp only [runEvs, hrne, if_neg, ite_false, List.reverse_reverse,
            asString_data]
          cases hre : runEvs vals us with
          | none => simp
          | some evs => simp
      | rxpr p =>
          intro prev acc fuel hok hacc
          simp only [runOkb, Bool.and_eq_true] at hok
          simp only [runStr, String.data_append]
          have hph1 : 1 ≤ (pholder p).data.length := by
            simp [pholder, String.data_append]
          rw [show ((pholder p).data ++ (runStr us).data).length + fuel + 1
            = ((pholder p).data.length + (runStr us).data.length + fuel) + 1
            from by simp only [List.length_append]]
          rw [reSplitGo_ph hok.1 (runStr us).data acc _]
          rw [show (pholder p).data.length + (runStr us).data.length + fuel
            = (runStr us).data.length + ((pholder p).data.length + fuel - 1) + 1
            from by omega]
          have ihr := ih (some false) [] ((pholder p).data.length + fuel - 1)
            hok.2 (fun hh => absurd rfl hh)
          simp only [if_pos rfl, List.nil_append] at ihr
          generalize hT : reSplitGo ((runStr us).data.length
            + ((pholder p).data.length + fuel - 1) + 1) [] (runStr us).data
            = REST
          rw [hT] at ihr
          cases hlk : alGet vals p with
          | none =>
              simp [runEvs, emitSplit, hlk]
          | some ev =>
              cases hre : runEvs vals us with
              | none =>
                  rw [hre] at ihr
                  simp only [Option.map_none'] at ihr
                  simp [runEvs, emitSplit, hlk, ihr, hre]
              | some evs =>
                  rw [hre] at ihr
                  simp only [Option.map_some'] at ihr
                  by_cases ha : acc = []
                  · subst ha
                    simp [runEvs, emitSplit, hlk, ihr, hre]
                  · have hne : acc.reverse.asString ≠ "" := by
                      simp [asString_eq_empty, ha]
                    simp [runEvs, emitSplit, hlk, ihr, hre, hne, ha]

/-- Interpolating the rendered text of a well-formed run replays exactly
the run events (both sides fail together on a missing `values` name). -/
theorem splitSub_run (vals : List (String × Ev)) (us : List RItem)
    (h : runOkb us none = true) :
    splitSub vals (runStr us) = runEvs vals us := by
  unfold splitSub reSplit
  have h2 := splitRun_go vals us none [] 0 h (fun hh => absurd rfl hh)
  simp only [Nat.add_zero] at h2
  rw [h2]
  cases hre : runEvs vals us with
  | none => simp
  | some evs => simp

/-- The pending run after scanning a content sequence, mirroring
`Frag.partsPre`. -/
def runApp : List RItem → List String → Frag → List RItem
  | run, _, .nil => run
  | run, ps, .txt s _ r => runApp (run ++ [.rtxt s]) ps r
  | run, ps, .xpr _ _ r =>
      match ps with
      | [] => run
      | p :: ps2 => runApp (run ++ [.rxpr p]) ps2 r
  | _, ps, .elem _ _ _ _ c r => runApp [] (ps.drop c.nExprs) r

theorem runLastD_snoc (run : List RItem) (u : RItem) :
    ∀ prev, runLastD (run ++ [u]) prev
      = (match u with
         | .rtxt _ => some true
         | .rxpr _ => some false) := by
  induction run with
  | nil => intro prev; cases u <;> rfl
  | cons v run ih => intro prev; cases v <;> simpa [runLastD] using ih _

theorem runOkb_snoc_txt (s : String) :
    ∀ (run : List RItem) (prev : Option Bool), runOkb run prev = true →
    runLastD run prev ≠ some true → safeText s = true →
    runOkb (run ++ [RItem.rtxt s]) prev = true := by
  intro run
  induction run with
  | nil =>
      intro prev _ hlast hs
      simp_all [runOkb, runLastD]
  | cons v run ih =>
      intro prev hok hlast hs
      cases v with
      | rtxt s2 =>
          simp only [runOkb, Bool.and_eq_true] at hok
          simp only [List.cons_append, runOkb, Bool.and_eq_true]
          exact ⟨hok.1, ih (some true) hok.2 hlast hs⟩
      | rxpr p2 =>
          simp only [runOkb, Bool.and_eq_true] at hok
          simp only [List.cons_append, runOkb, Bool.and_eq_true]
          exact ⟨hok.1, ih (some false) hok.2 hlast hs⟩

theorem runOkb_snoc_xpr (p : String) :
    ∀ (run : List RItem) (prev : Option Bool), runOkb run prev = true →
    wordStr p = true →
    runOkb (run ++ [RItem.rxpr p]) prev = true := by
  intro run
  induction run with
  | nil =>
      intro prev _ hw
      simp_all [runOkb]
  | cons v run ih =>
      intro prev hok hw
      cases v with
      | rtxt s2 =>
          simp only [runOkb, Bool.and_eq_true] at hok
          simp only [List.cons_append, runOkb, Bool.and_eq_true]
          exact ⟨hok.1, ih (some true) hok.2 hw⟩
      | rxpr p2 =>
          simp only [runOkb, Bool.and_eq_true] at hok
          simp only [List.cons_append, runOkb, Bool.and_eq_true]
          exact ⟨hok.1, ih (some false) hok.2 hw⟩

theorem runStr_snoc_txt (run : List RItem) (s : String) :
    runStr (run ++ [RItem.rtxt s]) = runStr run ++ s := by
  induction run with
  | nil => simp [runStr]
  | cons v run ih => cases v <;> simp [runStr, ih, String.append_assoc]

theorem runStr_snoc_xpr (run : List RItem) (p : String) :
    runStr (run ++ [RItem.rxpr p]) = runStr run ++ pholder p := by
  induction run with
  | nil => simp [runStr]
  | cons v run ih => cases v <;> simp [runStr, ih, String.append_assoc]

theorem runEvs_snoc_txt (vals : List (String × Ev)) (run : List RItem)
    (s : String) :
    runEvs vals (run ++ [RItem.rtxt s])
      = (runEvs vals run).map (· ++ [Ev.text s (none, -1, -1)]) := by
  induction run with
  | nil => simp [runEvs]
  | cons v run ih =>
      cases v with
      | rtxt s2 =>
          simp only [List.cons_append, runEvs, List.append_eq]
          rw [ih]
          cases hre : runEvs vals run <;> simp
      | rxpr p2 =>
          simp only [List.cons_append, runEvs, List.append_eq]
          cases hlk2 : alGet vals p2 with
          | none => rfl
          | some ev2 =>
              rw [ih]
              cases hre : runEvs vals run <;> simp

theorem runEvs_snoc_xpr (vals : List (String × Ev)) (run : List RItem)
    (p : String) (ev : Ev) (hlk : alGet vals p = some ev) :
    runEvs vals (run ++ [RItem.rxpr p])
      = (runEvs vals run).map (· ++ [ev]) := by
  induction run with
  | nil => simp [runEvs, hlk]
  | cons v run ih =>
      cases v with
      | rtxt s2 =>
          simp only [List.cons_append, runEvs, List.append_eq]
          rw [ih]
          cases hre : runEvs vals run <;> simp
      | rxpr p2 =>
          simp only [List.cons_append, runEvs, List.append_eq]
          cases hlk2 : alGet vals p2 with
          | none => rfl
          | some ev2 =>
              rw [ih]
              cases hre : runEvs vals run <;> simp

theorem runStr_ne (run : List RItem) (prev : Option Bool)
    (h : runOkb run prev = true) (hne : run ≠ []) : runStr run ≠ "" := by
  cases run with
  | nil => exact absurd rfl hne
  | cons v run =>
      cases v with
      | rtxt s =>
          simp only [runOkb, Bool.and_eq_true] at h
          have hs := h.1.2
          simp only [safeText, Bool.and_eq_true, decide_eq_true_eq] at hs
          simp only [runStr]
          intro hh
          have := congrArg String.data hh
          rw [String.data_append, empty_data] at this
          exact hs.1 ((data_eq_nil_iff s).mp (by
            rcases List.append_eq_nil.mp this with ⟨h1, _⟩
            exact h1))
      | rxpr p =>
          simp only [runStr]
          intro hh
          have := congrArg String.data hh
          rw [String.data_append, empty_data] at this
          rcases List.append_eq_nil.mp this with ⟨h1, _⟩
          have h2 : ("%(" : String).data ++ (p.data ++ (")s" : String).data)
              = [] := by
            simp only [pholder, String.data_append, List.append_assoc] at h1
            exact h1
          simp at h2

theorem seqOk_strict_markers (r : Frag) (h : seqOk true r none = true) :
    1 ≤ r.nMarkers := by
  cases r with
  | nil => simp [seqOk] at h
  | txt s p r2 => simp only [Frag.nMarkers]; omega
  | xpr c p r2 => simp only [Frag.nMarkers]; omega
  | elem t a ps pe c r2 => simp [seqOk] at h

theorem drain_allsome (vals : List (String × Ev)) (s : String) :
    ∀ (l : List Ev), drainOrder vals s (l.map some) = some (l, []) := by
  intro l
  induction l with
  | nil => rfl
  | cons ev l ih => simp [drainOrder, ih]

/-- Draining a slot at a non-closing flush: re-emit the leading captured
events, interpolate the accumulated text at the first marker, and stop. -/
theorem drain_flush (vals : List (String × Ev)) (s : String)
    (pendE : List Ev) (mk : Nat) (tail : List (Option Ev))
    (hs : s ≠ "") (hsplit : splitSub vals s = some pendE)
    (hmk : 1 ≤ mk) (htail : 2 ≤ mk ∨ tail = []) :
    ∀ (lead : List Ev),
    drainOrder vals s (lead.map some ++ (List.replicate mk none ++ tail))
      = some (lead ++ pendE, List.replicate (mk - 1) none ++ tail) := by
  intro lead
  induction lead with
  | nil =>
      match mk, hmk with
      | 1, _ =>
          rcases htail with h2 | h2
          · omega
          · subst h2
            simp [drainOrder, hs, hsplit]
      | mk + 2, _ =>
          simp [drainOrder, hs, hsplit, List.replicate_succ]
  | cons ev lead ih =>
      simp [drainOrder, ih]

/-- Draining a slot at the closing part of an element with a pending
marker: leading events, the interpolation, then the captured END. -/
theorem drain_close_one (vals : List (String × Ev)) (s : String)
    (pendE : List Ev) (stop : Ev)
    (hs : s ≠ "") (hsplit : splitSub vals s = some pendE) :
    ∀ (lead : List Ev),
    drainOrder vals s (lead.map some ++ (List.replicate 1 none ++ [some stop]))
      = some (lead ++ (pendE ++ [stop]), []) := by
  intro lead
  induction lead with
  | nil =>
      simp only [List.map_nil, List.nil_append, List.replicate_one,
        List.cons_append, drainOrder, hs, hsplit]
      have := drain_allsome vals s [stop]
      simp only [List.map_cons, List.map_nil] at this
      simp [drainOrder, hs, hsplit, this]
  | cons ev lead ih =>
      simp only [List.replicate_one, List.cons_append, List.nil_append] at ih
      simp [drainOrder, ih]

/-- One step of the part-replay loop. -/
theorem translateParts_step (vals : List (String × Ev))
    (m : List (Nat × List (Option Ev))) (o : Nat) (s : String)
    (parts : List (Nat × String)) (slot : List (Option Ev))
    (out : List Ev) (rem : List (Option Ev))
    (hm : alGet m o = some slot) (hd : drainOrder vals s slot = some (out, rem)) :
    translateParts vals m ((o, s) :: parts)
      = (translateParts vals (alSet m o rem) parts).map (out ++ ·) := by
  simp only [translateParts, hm, hd]
  cases htp : translateParts vals (alSet m o rem) parts <;> simp [htp]

theorem runLastD_isSome (run : List RItem) (hne : run ≠ []) :
    ∀ prev, (runLastD run prev).isSome = true := by
  induction run with
  | nil => exact absurd rfl hne
  | cons u run ih =>
      intro prev
      cases u with
      | rtxt s =>
          by_cases hr : run = []
          · subst hr; rfl
          · exact ih hr (some true)
      | rxpr p =>
          by_cases hr : run = []
          · subst hr; rfl
          · exact ih hr (some false)

/-- Replaying the parts of a content sequence: the part loop emits the
sequence replay predicted by `Frag.seqOut`, drains each element slot to
empty, and leaves the sequence slot with its lead and remaining markers. -/
theorem translateParts_seq (f : Frag) :
    ∀ (vals : List (String × Ev)) (m : List (Nat × List (Option Ev)))
      (run : List RItem) (ps : List String) (o n mk : Nat)
      (lead pendE : List Ev) (tailO : List (Option Ev)) (strict : Bool)
      (after : List (Nat × String)),
    runOkb run none = true →
    seqOk strict f (runLastD run none) = true →
    runEvs vals run = some pendE →
    (∀ pe ∈ List.zip (ps.take f.nExprs) f.xprs, alGet vals pe.1 = some pe.2) →
    (∀ p2 ∈ ps, wordStr p2 = true) →
    f.nExprs ≤ ps.length →
    alGet m o = some (lead.map some ++ (List.replicate mk none ++ tailO)) →
    (∀ k v, alGet (f.slots n) k = some v → alGet m k = some v) →
    o < n →
    (strict = true → mk = run.length + f.nMarkers ∧ run.length ≤ 1 ∧ 1 ≤ o) →
    (strict = false →
      run.length + f.nMarkers ≤ mk ∧ tailO = [] ∧ lead = [] ∧ o = 0) →
    ∃ m2,
      translateParts vals m ((f.partsPre (runStr run) ps o n).1 ++ after)
        = (translateParts vals m2 after).map ((f.seqOut lead pendE).1 ++ ·) ∧
      (∃ mkOut,
        alGet m2 o = some ((f.seqOut lead pendE).2.1.map some ++
          (List.replicate mkOut none ++ tailO)) ∧
        (strict = true → mkOut = (runApp run ps f).length) ∧
        (strict = false → (runApp run ps f).length ≤ mkOut)) ∧
      (∀ k, ¬(k = o) → alGet m2 k =
        (match alGet (f.slots n) k with
         | some _ => some ([] : List (Option Ev))
         | none => alGet m k)) ∧
      runOkb (runApp run ps f) none = true ∧
      runEvs vals (runApp run ps f) = some (f.seqOut lead pendE).2.2 ∧
      (f.partsPre (runStr run) ps o n).2 = runStr (runApp run ps f) ∧
      (strict = true → (runApp run ps f).length ≤ 1) := by
  induction f with
  | nil =>
      intro vals m run ps o n mk lead pendE tailO strict after
        hrun hseq hpE hvals hword hnE hslot hinner hon hstrict hroot
      refine ⟨m, ?_, ⟨mk, ?_, ?_, ?_⟩, ?_, ?_, ?_, ?_, ?_⟩
      · simp only [Frag.partsPre, Frag.seqOut, List.nil_append]
        cases htp : translateParts vals m after <;> simp [htp]
      · simpa [Frag.seqOut] using hslot
      · intro hst
        simpa [runApp, Frag.nMarkers] using (hstrict hst).1
      · intro hst
        have := (hroot hst).1
        simpa [runApp, Frag.nMarkers] using this
      · intro k hk
        simp [Frag.slots, alGet]
      · simpa [runApp] using hrun
      · simpa [runApp, Frag.seqOut] using hpE
      · simp [runApp, Frag.partsPre]
      · intro hst
        simpa [runApp] using (hstrict hst).2.1
  | txt s p r ih =>
      intro vals m run ps o n mk lead pendE tailO strict after
        hrun hseq hpE hvals hword hnE hslot hinner hon hstrict hroot
      simp only [seqOk, Bool.and_eq_true, decide_eq_true_eq] at hseq
      have hlast : runLastD run none ≠ some true := by
        intro hL
        rw [hL] at hseq
        rcases hseq with ⟨⟨h1, _⟩, _⟩
        simp at h1
      have hsafe : safeText s = true := hseq.1.2
      have hrun2 : runOkb (run ++ [RItem.rtxt s]) none = true :=
        runOkb_snoc_txt s run none hrun hlast hsafe
      have hseq2 : seqOk strict r (runLastD (run ++ [RItem.rtxt s]) none)
          = true := by
        rw [runLastD_snoc]
        exact hseq.2
      have hpE2 : runEvs vals (run ++ [RItem.rtxt s])
          = some (pendE ++ [Ev.text s (none, -1, -1)]) := by
        rw [runEvs_snoc_txt, hpE]
        rfl
      have hstrict2 : strict = true →
          mk = (run ++ [RItem.rtxt s]).length + r.nMarkers ∧
          (run ++ [RItem.rtxt s]).length ≤ 1 ∧ 1 ≤ o := by
        intro hst
        obtain ⟨h1, h2, h3⟩ := hstrict hst
        have hrunnil : run = [] := by
          cases hrn : run with
          | nil => rfl
          | cons u us =>
              have := runLastD_isSome run (by rw [hrn]; simp) none
              cases hL : runLastD run none with
              | none => rw [hL] at this; simp at this
              | some b =>
                  rw [hL] at hseq
                  rcases hseq with ⟨⟨hml, _⟩, _⟩
                  rw [hst] at hml
                  cases b with
                  | true => simp at hml
                  | false => simp at hml
        subst hrunnil
        simp only [Frag.nMarkers, List.length_nil, Nat.zero_add] at h1
        refine ⟨by simpa using h1, by simp, h3⟩
      have hroot2 : strict = false →
          (run ++ [RItem.rtxt s]).length + r.nMarkers ≤ mk ∧
          tailO = [] ∧ lead = [] ∧ o = 0 := by
        intro hst
        obtain ⟨h1, h2, h3, h4⟩ := hroot hst
        simp only [Frag.nMarkers] at h1
        exact ⟨by simp; omega, h2, h3, h4⟩
      obtain ⟨m2, htp, hm2o, hm2k, hok3, hpE3, hpp3, hlen3⟩ :=
        ih vals m (run ++ [RItem.rtxt s]) ps o n mk lead
          (pendE ++ [Ev.text s (none, -1, -1)]) tailO strict after
          hrun2 hseq2 hpE2 (by simpa [Frag.nExprs, Frag.xprs] using hvals)
          hword (by simpa [Frag.nExprs] using hnE) hslot
          (by simpa [Frag.slots] using hinner) hon hstrict2 hroot2
      refine ⟨m2, ?_, ?_, ?_, ?_, ?_, ?_, ?_⟩
      · rw [show (Frag.txt s p r).partsPre (runStr run) ps o n
          = r.partsPre (runStr (run ++ [RItem.rtxt s])) ps o n from by
            simp [Frag.partsPre, runStr_snoc_txt]]
        exact htp
      · simpa [Frag.seqOut] using hm2o
      · simpa [Frag.slots] using hm2k
      · simpa [runApp] using hok3
      · simpa [runApp, Frag.seqOut] using hpE3
      · rw [show (Frag.txt s p r).partsPre (runStr run) ps o n
          = r.partsPre (runStr (run ++ [RItem.rtxt s])) ps o n from by
            simp [Frag.partsPre, runStr_snoc_txt]]
        simpa [runApp] using hpp3
      · simpa [runApp] using hlen3
  | xpr code p r ih =>
      intro vals m run ps o n mk lead pendE tailO strict after
        hrun hseq hpE hvals hword hnE hslot hinner hon hstrict hroot
      simp only [seqOk, Bool.and_eq_true, decide_eq_true_eq] at hseq
      cases hps : ps with
      | nil =>
          rw [hps] at hnE
          simp [Frag.nExprs] at hnE
      | cons p0 ps2 =>
      subst hps
      have hlk : alGet vals p0 = some (Ev.expr code p) := by
        have hmem : (p0, Ev.expr code p) ∈
            List.zip ((p0 :: ps2).take (Frag.xpr code p r).nExprs)
              (Frag.xpr code p r).xprs := by
          simp only [Frag.nExprs, Frag.xprs, Nat.add_comm 1 r.nExprs,
            List.take_succ_cons, List.zip_cons_cons]
          exact List.mem_cons_self _ _
        exact hvals _ hmem
      have hw0 : wordStr p0 = true := hword p0 (List.mem_cons_self p0 ps2)
      have hrun2 : runOkb (run ++ [RItem.rxpr p0]) none = true :=
        runOkb_snoc_xpr p0 run none hrun hw0
      have hseq2 : seqOk strict r (runLastD (run ++ [RItem.rxpr p0]) none)
          = true := by
        rw [runLastD_snoc]
        exact hseq.2
      have hpE2 : runEvs vals (run ++ [RItem.rxpr p0])
          = some (pendE ++ [Ev.expr code p]) := by
        rw [runEvs_snoc_xpr vals run p0 (Ev.expr code p) hlk, hpE]
        rfl
      have hvals2 : ∀ pe ∈ List.zip (ps2.take r.nExprs) r.xprs,
          alGet vals pe.1 = some pe.2 := by
        intro pe hpe
        refine hvals pe ?_
        simp only [Frag.nExprs, Frag.xprs, Nat.add_comm 1 r.nExprs,
          List.take_succ_cons, List.zip_cons_cons]
        exact List.mem_cons_of_mem _ hpe
      have hstrict2 : strict = true →
          mk = (run ++ [RItem.rxpr p0]).length + r.nMarkers ∧
          (run ++ [RItem.rxpr p0]).length ≤ 1 ∧ 1 ≤ o := by
        intro hst
        obtain ⟨h1, h2, h3⟩ := hstrict hst
        have hrunnil : run = [] := by
          cases hrn : run with
          | nil => rfl
          | cons u us =>
              have := runLastD_isSome run (by rw [hrn]; simp) none
              cases hL : runLastD run none with
              | none => rw [hL] at this; simp at this
              | some b =>
                  rw [hL] at hseq
                  rcases hseq with ⟨hml, _⟩
                  rw [hst] at hml
                  simp at hml
        subst hrunnil
        simp only [Frag.nMarkers, List.length_nil, Nat.zero_add] at h1
        refine ⟨by simpa using h1, by simp, h3⟩
      have hroot2 : strict = false →
          (run ++ [RItem.rxpr p0]).length + r.nMarkers ≤ mk ∧
          tailO = [] ∧ lead = [] ∧ o = 0 := by
        intro hst
        obtain ⟨h1, h2, h3, h4⟩ := hroot hst
        simp only [Frag.nMarkers] at h1
        exact ⟨by simp; omega, h2, h3, h4⟩
      obtain ⟨m2, htp, hm2o, hm2k, hok3, hpE3, hpp3, hlen3⟩ :=
        ih vals m (run ++ [RItem.rxpr p0]) ps2 o n mk lead
          (pendE ++ [Ev.expr code p]) tailO strict after
          hrun2 hseq2 hpE2 hvals2
          (fun p2 hp => hword p2 (List.mem_cons_of_mem p0 hp))
          (by simp only [Frag.nExprs] at hnE; simp at hnE ⊢; omega) hslot
          (by simpa [Frag.slots] using hinner) hon hstrict2 hroot2
      refine ⟨m2, ?_, ?_, ?_, ?_, ?_, ?_, ?_⟩
      · rw [show (Frag.xpr code p r).partsPre (runStr run) (p0 :: ps2) o n
          = r.partsPre (runStr (run ++ [RItem.rxpr p0])) ps2 o n from by
            simp [Frag.partsPre, runStr_snoc_xpr]]
        exact htp
      · simpa [Frag.seqOut] using hm2o
      · simpa [Frag.slots] using hm2k
      · simpa [runApp] using hok3
      · simpa [runApp, Frag.seqOut] using hpE3
      · rw [show (Frag.xpr code p r).partsPre (runStr run) (p0 :: ps2) o n
          = r.partsPre (runStr (run ++ [RItem.rxpr p0])) ps2 o n from by
            simp [Frag.partsPre, runStr_snoc_xpr]]
        simpa [runApp] using hpp3
      · simpa [runApp] using hlen3
  | elem t a pst pe c r ihc ihr =>
      intro vals m run ps o n mk lead pendE tailO strict after
        hrun hseq hpE hvals hword hnE hslot hinner hon hstrict hroot
      simp only [seqOk, Bool.and_eq_true] at hseq
      simp only [Frag.nExprs] at hnE
      have hn1 : 1 ≤ n := by omega
      have hno : ¬(n = o) := by omega
      have hlenC : (ps.take c.nExprs).length = c.xprs.length := by
        rw [xprs_length, List.length_take]
        omega
      have hzipsplit : List.zip (ps.take (c.nExprs + r.nExprs))
          (c.xprs ++ r.xprs)
          = List.zip (ps.take c.nExprs) c.xprs ++
            List.zip ((ps.drop c.nExprs).take r.nExprs) r.xprs := by
        rw [List.take_add, List.zip_append hlenC]
      have hvalsC : ∀ pe2 ∈ List.zip (ps.take c.nExprs) c.xprs,
          alGet vals pe2.1 = some pe2.2 := by
        intro pe2 hpe
        refine hvals pe2 ?_
        simp only [Frag.nExprs, Frag.xprs]
        rw [hzipsplit]
        exact List.mem_append_left _ hpe
      have hvalsR : ∀ pe2 ∈ List.zip ((ps.drop c.nExprs).take r.nExprs)
          r.xprs, alGet vals pe2.1 = some pe2.2 := by
        intro pe2 hpe
        refine hvals pe2 ?_
        simp only [Frag.nExprs, Frag.xprs]
        rw [hzipsplit]
        exact List.mem_append_right _ hpe
      have hwordR : ∀ p2 ∈ ps.drop c.nExprs, wordStr p2 = true :=
        fun p2 hp => hword p2 (List.drop_subset _ _ hp)
      have hnER : r.nExprs ≤ (ps.drop c.nExprs).length := by
        rw [List.length_drop]
        omega
      have hslotn : alGet ((Frag.elem t a pst pe c r).slots n) n
          = some (some (Ev.start t a pst)
            :: (c.markers ++ [some (Ev.stop t pe)])) := by
        simp [Frag.slots, alGet]
      have hTail : ∀ (m1 : List (Nat × List (Option Ev))) (mk1 : Nat),
          alGet m1 o = some (List.replicate mk1 none ++ tailO) →
          (∀ k, ¬(k = o) → alGet m1 k = alGet m k) →
          (strict = true → mk1 = r.nMarkers) →
          (strict = false → r.nMarkers ≤ mk1) →
          ∃ m4,
            translateParts vals m1
              ((c.partsPre "" ps n (n + 1)).1 ++
                ((n, (c.partsPre "" ps n (n + 1)).2) ::
                  ((r.partsPre "" (ps.drop c.nExprs) o
                    (n + 1 + c.nElems)).1 ++ after)))
              = (translateParts vals m4 after).map
                  (((c.seqOut [Ev.start t a pst] []).1 ++
                    (((c.seqOut [Ev.start t a pst] []).2.1 ++
                      ((c.seqOut [Ev.start t a pst] []).2.2 ++
                        [Ev.stop t pe])) ++ (r.seqOut [] []).1)) ++ ·) ∧
            (∃ mkOut, alGet m4 o = some ((r.seqOut [] []).2.1.map some ++
                (List.replicate mkOut none ++ tailO)) ∧
              (strict = true →
                mkOut = (runApp [] (ps.drop c.nExprs) r).length) ∧
              (strict = false →
                (runApp [] (ps.drop c.nExprs) r).length ≤ mkOut)) ∧
            (∀ k, ¬(k = o) → alGet m4 k =
              (match alGet ((Frag.elem t a pst pe c r).slots n) k with
               | some _ => some ([] : List (Option Ev))
               | none => alGet m k)) ∧
            runOkb (runApp [] (ps.drop c.nExprs) r) none = true ∧
            runEvs vals (runApp [] (ps.drop c.nExprs) r)
              = some (r.seqOut [] []).2.2 ∧
            (r.partsPre "" (ps.drop c.nExprs) o (n + 1 + c.nElems)).2
              = runStr (runApp [] (ps.drop c.nExprs) r) ∧
            (strict = true → (runApp [] (ps.drop c.nExprs) r).length ≤ 1) := by
        intro m1 mk1 hm1o hm1k hmkS hmkR
        have hm1n : alGet m1 n = some ([Ev.start t a pst].map some ++
            (List.replicate c.nMarkers none ++ [some (Ev.stop t pe)])) := by
          rw [hm1k n hno, hinner n _ hslotn, markers_replicate]
          simp
        have hinnerC : ∀ k v, alGet (c.slots (n + 1)) k = some v →
            alGet m1 k = some v := by
          intro k v hk
          have hb := slots_bounds c (n + 1) (k, v) (alGet_mem hk)
          have hko : ¬(k = o) := by omega
          rw [hm1k k hko]
          refine hinner k v ?_
          simp only [Frag.slots, alGet]
          rw [if_neg (by omega : ¬(k = n)), alGet_append, hk]
        have hgen : seqOk true c none = true →
            ∃ m2,
              translateParts vals m1
                ((c.partsPre "" ps n (n + 1)).1 ++
                  ((n, (c.partsPre "" ps n (n + 1)).2) ::
                    ((r.partsPre "" (ps.drop c.nExprs) o
                      (n + 1 + c.nElems)).1 ++ after)))
                = (translateParts vals m2
                    ((n, (c.partsPre "" ps n (n + 1)).2) ::
                      ((r.partsPre "" (ps.drop c.nExprs) o
                        (n + 1 + c.nElems)).1 ++ after))).map
                    ((c.seqOut [Ev.start t a pst] []).1 ++ ·) ∧
              alGet m2 n = some
                ((c.seqOut [Ev.start t a pst] []).2.1.map some ++
                  (List.replicate ((runApp [] ps c).length) none ++
                    [some (Ev.stop t pe)])) ∧
              (∀ k, ¬(k = n) → alGet m2 k =
                (match alGet (c.slots (n + 1)) k with
                 | some _ => some ([] : List (Option Ev))
                 | none => alGet m1 k)) ∧
              runOkb (runApp [] ps c) none = true ∧
              runEvs vals (runApp [] ps c)
                = some (c.seqOut [Ev.start t a pst] []).2.2 ∧
              (c.partsPre "" ps n (n + 1)).2 = runStr (runApp [] ps c) ∧
              (runApp [] ps c).length ≤ 1 := by
          intro hcOk
          obtain ⟨m2, h1, ⟨mkOut, h2a, h2b, h2c⟩, h3, h4, h5, h6, h7⟩ :=
            ihc vals m1 [] ps n (n + 1) c.nMarkers [Ev.start t a pst] []
              [some (Ev.stop t pe)] true
              ((n, (c.partsPre "" ps n (n + 1)).2) ::
                ((r.partsPre "" (ps.drop c.nExprs) o
                  (n + 1 + c.nElems)).1 ++ after))
              rfl hcOk rfl hvalsC hword (by omega) hm1n hinnerC
              (by omega)
              (by intro _; exact ⟨by simp, by simp, by omega⟩)
              (by intro h; exact absurd h (by decide))
          rw [h2b rfl] at h2a
          simp only [show runStr ([] : List RItem) = "" from rfl] at h1 h6
          exact ⟨m2, h1, h2a, h3, h4, h5, h6, h7 rfl⟩
        have hInner : ∃ m2,
            translateParts vals m1
              ((c.partsPre "" ps n (n + 1)).1 ++
                ((n, (c.partsPre "" ps n (n + 1)).2) ::
                  ((r.partsPre "" (ps.drop c.nExprs) o
                    (n + 1 + c.nElems)).1 ++ after)))
              = (translateParts vals m2
                  ((n, (c.partsPre "" ps n (n + 1)).2) ::
                    ((r.partsPre "" (ps.drop c.nExprs) o
                      (n + 1 + c.nElems)).1 ++ after))).map
                  ((c.seqOut [Ev.start t a pst] []).1 ++ ·) ∧
            alGet m2 n = some
              ((c.seqOut [Ev.start t a pst] []).2.1.map some ++
                (List.replicate ((runApp [] ps c).length) none ++
                  [some (Ev.stop t pe)])) ∧
            (∀ k, ¬(k = n) → alGet m2 k =
              (match alGet (c.slots (n + 1)) k with
               | some _ => some ([] : List (Option Ev))
               | none => alGet m1 k)) ∧
            runOkb (runApp [] ps c) none = true ∧
            runEvs vals (runApp [] ps c)
              = some (c.seqOut [Ev.start t a pst] []).2.2 ∧
            (c.partsPre "" ps n (n + 1)).2 = runStr (runApp [] ps c) ∧
            (runApp [] ps c).length ≤ 1 := by
          rcases hcs : c with _ | ⟨s2, p2, r2⟩ | ⟨c2, p2, r2⟩
            | ⟨t2, a2, ps2, pe2, c2, r2⟩
          · subst hcs
            refine ⟨m1, ?_, ?_, ?_, rfl, rfl, rfl, by simp [runApp]⟩
            · simp only [Frag.partsPre, Frag.seqOut, List.nil_append]
              cases htp : translateParts vals m1
                ((n, "") :: ((r.partsPre "" (ps.drop Frag.nil.nExprs) o
                  (n + 1 + Frag.nil.nElems)).1 ++ after)) <;>
                simp [htp]
            · simpa [Frag.seqOut, runApp, Frag.nMarkers] using hm1n
            · intro k hk
              simp [Frag.slots, alGet]
          · subst hcs
            exact hgen hseq.1.2
          · subst hcs
            exact hgen hseq.1.2
          · subst hcs
            exact hgen hseq.1.2
        obtain ⟨m2, hI1, hI2, hI3, hI4, hI5, hI6, hI7⟩ := hInner
        have hClose : translateParts vals m2
            ((n, (c.partsPre "" ps n (n + 1)).2) ::
              ((r.partsPre "" (ps.drop c.nExprs) o
                (n + 1 + c.nElems)).1 ++ after))
            = (translateParts vals (alSet m2 n [])
                ((r.partsPre "" (ps.drop c.nExprs) o
                  (n + 1 + c.nElems)).1 ++ after)).map
                (((c.seqOut [Ev.start t a pst] []).2.1 ++
                  ((c.seqOut [Ev.start t a pst] []).2.2 ++
                    [Ev.stop t pe])) ++ ·) := by
          cases hrac : runApp [] ps c with
          | nil =>
              have hpc2 : (c.partsPre "" ps n (n + 1)).2 = "" := by
                rw [hI6, hrac]
                rfl
              have hpEc : (c.seqOut [Ev.start t a pst] []).2.2 = [] := by
                rw [hrac] at hI5
                exact (Option.some.inj hI5).symm
              rw [hrac] at hI2
              simp only [List.length_nil, List.replicate_zero,
                List.nil_append] at hI2
              have hI2b : alGet m2 n = some
                  (((c.seqOut [Ev.start t a pst] []).2.1
                    ++ [Ev.stop t pe]).map some) := by
                rw [hI2]
                simp
              have hdrain := drain_allsome vals
                (c.partsPre "" ps n (n + 1)).2
                ((c.seqOut [Ev.start t a pst] []).2.1 ++ [Ev.stop t pe])
              rw [translateParts_step vals m2 n _ _ _ _ _ hI2b hdrain]
              rw [hpEc]
              simp
          | cons u us =>
              have hus : us = [] := by
                have h7 := hI7
                rw [hrac] at h7
                simp only [List.length_cons] at h7
                have h0 : us.length = 0 := by omega
                exact List.length_eq_zero.mp h0
              subst hus
              have hok1 : runOkb [u] none = true := by
                rw [← hrac]
                exact hI4
              have hsne : runStr [u] ≠ "" :=
                runStr_ne [u] none hok1 (by simp)
              have hsplitC : splitSub vals (runStr [u])
                  = some (c.seqOut [Ev.start t a pst] []).2.2 := by
                rw [splitSub_run vals [u] hok1, ← hrac]
                exact hI5
              rw [hrac] at hI2
              simp only [List.length_cons, List.length_nil] at hI2
              have hdrain := drain_close_one vals (runStr [u])
                (c.seqOut [Ev.start t a pst] []).2.2 (Ev.stop t pe)
                hsne hsplitC (c.seqOut [Ev.start t a pst] []).2.1
              have hpc2 : (c.partsPre "" ps n (n + 1)).2 = runStr [u] := by
                rw [hI6, hrac]
              rw [hpc2]
              rw [translateParts_step vals m2 n _ _ _ _ _ hI2 hdrain]
        have hm3o : alGet (alSet m2 n []) o
            = some (List.replicate mk1 none ++ tailO) := by
          rw [alGet_alSet, if_neg (by omega : ¬(o = n))]
          rw [hI3 o (by omega)]
          rw [slots_none_low c (n + 1) o (by omega)]
          exact hm1o
        have hinnerR : ∀ k v, alGet (r.slots (n + 1 + c.nElems)) k = some v →
            alGet (alSet m2 n []) k = some v := by
          intro k v hk
          have hb := slots_bounds r (n + 1 + c.nElems) (k, v) (alGet_mem hk)
          rw [alGet_alSet, if_neg (by omega : ¬(k = n))]
          rw [hI3 k (by omega)]
          rw [slots_none_high c (n + 1) k (by omega)]
          rw [hm1k k (by omega)]
          refine hinner k v ?_
          simp only [Frag.slots, alGet]
          rw [if_neg (by omega : ¬(k = n)), alGet_append]
          rw [slots_none_high c (n + 1) k (by omega), hk]
        obtain ⟨m4, hR1, hR2, hR3, hR4, hR5, hR6, hR7⟩ :=
          ihr vals (alSet m2 n []) [] (ps.drop c.nExprs) o
            (n + 1 + c.nElems) mk1 [] [] tailO strict after
            rfl hseq.2 rfl hvalsR hwordR hnER hm3o hinnerR (by omega)
            (by intro h
                exact ⟨by simpa using hmkS h, by simp, (hstrict h).2.2⟩)
            (by intro h
                obtain ⟨_, h2, h3, h4⟩ := hroot h
                exact ⟨by simpa using hmkR h, h2, rfl, h4⟩)
        simp only [show runStr ([] : List RItem) = "" from rfl] at hR1 hR6
        refine ⟨m4, ?_, hR2, ?_, hR4, hR5, hR6, hR7⟩
        · rw [hI1, hClose, hR1]
          cases htp : translateParts vals m4 after <;> simp [htp]
        · intro k hk
          by_cases hkn : k = n
          · rw [hR3 k hk]
            rw [slots_none_low r (n + 1 + c.nElems) k (by omega)]
            rw [alGet_alSet, if_pos hkn]
            simp [Frag.slots, alGet, hkn]
          · rw [hR3 k hk]
            cases hrk : alGet (r.slots (n + 1 + c.nElems)) k with
            | some w =>
                have hb := slots_bounds r (n + 1 + c.nElems) (k, w)
                  (alGet_mem hrk)
                simp only [Frag.slots, alGet]
                rw [if_neg hkn, alGet_append]
                rw [slots_none_high c (n + 1) k (by omega)]
                rw [hrk]
            | none =>
                rw [alGet_alSet, if_neg hkn]
                rw [hI3 k hkn]
                simp only [Frag.slots, alGet]
                rw [if_neg hkn, alGet_append]
                cases hck : alGet (c.slots (n + 1)) k with
                | some v => rfl
                | none =>
                    rw [hm1k k hk, hrk]
      by_cases hflush : runStr run ≠ "" ∨ o ≠ 0
      · have hrne : run ≠ [] := by
          rcases hflush with h | h
          · intro he
            subst he
            exact h rfl
          · cases hst : strict
            · exact absurd (hroot hst).2.2.2 h
            · intro he
              have h11 := hseq.1.1
              rw [hst, he] at h11
              simp [runLastD] at h11
        have hsne : runStr run ≠ "" := runStr_ne run none hrun hrne
        have hsplit : splitSub vals (runStr run) = some pendE := by
          rw [splitSub_run vals run hrun]
          exact hpE
        have hlpos : 1 ≤ run.length := List.length_pos.mpr hrne
        have hmk1 : 1 ≤ mk := by
          cases hst : strict
          · have h1 := (hroot hst).1
            omega
          · have h1 := (hstrict hst).1
            omega
        have htail2 : 2 ≤ mk ∨ tailO = [] := by
          cases hst : strict
          · exact Or.inr (hroot hst).2.1
          · left
            have h1 := (hstrict hst).1
            have hseq2 := hseq.2
            rw [hst] at hseq2
            have h2 := seqOk_strict_markers r hseq2
            simp only [Frag.nMarkers] at h1
            omega
        have hstep1 := translateParts_step vals m o (runStr run)
          ((c.partsPre "" ps n (n + 1)).1 ++
            ((n, (c.partsPre "" ps n (n + 1)).2) ::
              ((r.partsPre "" (ps.drop c.nExprs) o
                (n + 1 + c.nElems)).1 ++ after)))
          _ (lead ++ pendE) (List.replicate (mk - 1) none ++ tailO) hslot
          (drain_flush vals (runStr run) pendE mk tailO hsne hsplit hmk1
            htail2 lead)
        have hm1o : alGet (alSet m o (List.replicate (mk - 1) none ++ tailO))
            o = some (List.replicate (mk - 1) none ++ tailO) := by
          rw [alGet_alSet, if_pos rfl]
        have hm1k : ∀ k, ¬(k = o) →
            alGet (alSet m o (List.replicate (mk - 1) none ++ tailO)) k
              = alGet m k := by
          intro k hk
          rw [alGet_alSet, if_neg hk]
        have hmkS1 : strict = true → mk - 1 = r.nMarkers := by
          intro h
          have h1 := (hstrict h).1
          have h4 := (hstrict h).2.1
          simp only [Frag.nMarkers] at h1
          omega
        have hmkR1 : strict = false → r.nMarkers ≤ mk - 1 := by
          intro h
          have h1 := (hroot h).1
          simp only [Frag.nMarkers] at h1
          omega
        obtain ⟨m4, hT1, hT2, hT3, hT4, hT5, hT6, hT7⟩ :=
          hTail (alSet m o (List.replicate (mk - 1) none ++ tailO)) (mk - 1)
            hm1o hm1k hmkS1 hmkR1
        have hparts : ((Frag.elem t a pst pe c r).partsPre (runStr run)
            ps o n).1 ++ after
            = (o, runStr run) :: ((c.partsPre "" ps n (n + 1)).1 ++
              ((n, (c.partsPre "" ps n (n + 1)).2) ::
                ((r.partsPre "" (ps.drop c.nExprs) o
                  (n + 1 + c.nElems)).1 ++ after))) := by
          simp only [Frag.partsPre]
          rw [if_pos hflush]
          simp [List.append_assoc]
        refine ⟨m4, ?_, ?_, hT3, ?_, ?_, ?_, ?_⟩
        · rw [hparts, hstep1, hT1]
          cases htp : translateParts vals m4 after <;>
            simp [htp, Frag.seqOut]
        · simpa [Frag.seqOut, runApp] using hT2
        · simpa [runApp] using hT4
        · simpa [runApp, Frag.seqOut] using hT5
        · simp only [Frag.partsPre]
          simpa [runApp] using hT6
        · simpa [runApp] using hT7
      · push_neg at hflush
        have hstF : strict = false := by
          cases hst : strict
          · rfl
          · have := (hstrict hst).2.2
            omega
        obtain ⟨hmkR0, htail0, hlead0, ho0⟩ := hroot hstF
        have hrn : run = [] := by
          by_contra hne
          exact runStr_ne run none hrun hne hflush.1
        have hpE0 : pendE = [] := by
          rw [hrn] at hpE
          exact (Option.some.inj hpE).symm
        have hm1o : alGet m o = some (List.replicate mk none ++ tailO) := by
          rw [hlead0] at hslot
          simpa using hslot
        have hmkR1 : strict = false → r.nMarkers ≤ mk := by
          intro _
          rw [hrn] at hmkR0
          simp only [Frag.nMarkers, List.length_nil] at hmkR0
          omega
        have hmkS1 : strict = true → mk = r.nMarkers := by
          intro h
          rw [hstF] at h
          exact absurd h (by decide)
        obtain ⟨m4, hT1, hT2, hT3, hT4, hT5, hT6, hT7⟩ :=
          hTail m mk hm1o (fun k _ => rfl) hmkS1 hmkR1
        have hparts : ((Frag.elem t a pst pe c r).partsPre (runStr run)
            ps o n).1 ++ after
            = (c.partsPre "" ps n (n + 1)).1 ++
              ((n, (c.partsPre "" ps n (n + 1)).2) ::
                ((r.partsPre "" (ps.drop c.nExprs) o
                  (n + 1 + c.nElems)).1 ++ after)) := by
          simp only [Frag.partsPre]
          rw [if_neg (by push_neg; exact hflush)]
          simp [List.append_assoc]
        refine ⟨m4, ?_, ?_, hT3, ?_, ?_, ?_, ?_⟩
        · rw [hparts, hT1]
          cases htp : translateParts vals m4 after <;>
            simp [htp, Frag.seqOut, hpE0, hlead0]
        · simpa [Frag.seqOut, runApp] using hT2
        · simpa [runApp] using hT4
        · simpa [runApp, Frag.seqOut] using hT5
        · simp only [Frag.partsPre]
          simpa [runApp] using hT6
        · simpa [runApp] using hT7

theorem seqOut_lead_nil (f : Frag) :
    ∀ pendE, (f.seqOut [] pendE).2.1 = [] := by
  induction f with
  | nil => intro pendE; rfl
  | txt s p r ih => intro pendE; exact ih _
  | xpr c p r ih => intro pendE; exact ih _
  | elem t a pst pe c r ihc ihr => intro pendE; exact ihr []

theorem seqOut_flat (f : Frag) :
    ∀ (lead pendE tail : List Ev),
    (f.seqOut lead pendE).1 ++ ((f.seqOut lead pendE).2.1 ++
      ((f.seqOut lead pendE).2.2 ++ tail))
      = lead ++ (pendE ++ (f.outEvents ++ tail)) := by
  induction f with
  | nil => intro lead pendE tail; simp [Frag.seqOut, Frag.outEvents]
  | txt s p r ih =>
      intro lead pendE tail
      have h := ih lead (pendE ++ [Ev.text s (none, -1, -1)]) tail
      simp only [Frag.seqOut, Frag.outEvents]
      rw [h]
      simp
  | xpr c p r ih =>
      intro lead pendE tail
      have h := ih lead (pendE ++ [Ev.expr c p]) tail
      simp only [Frag.seqOut, Frag.outEvents]
      rw [h]
      simp
  | elem t a pst pe c r ihc ihr =>
      intro lead pendE tail
      have hc := ihc [Ev.start t a pst] []
        (Ev.stop t pe :: (r.outEvents ++ tail))
      have hr := ihr [] [] tail
      simp only [Frag.seqOut, Frag.outEvents]
      simp only [List.append_assoc, List.nil_append, List.cons_append,
        List.singleton_append] at hc hr ⊢
      rw [hr, hc]

theorem alGet_nodup {l : List (String × Ev)}
    (hnd : (l.map Prod.fst).Nodup) :
    ∀ {k : String} {v : Ev}, (k, v) ∈ l → alGet l k = some v := by
  induction l with
  | nil => intro k v h; cases h
  | cons hd rest ih =>
      obtain ⟨k1, v1⟩ := hd
      simp only [List.map_cons, List.nodup_cons] at hnd
      intro k v h
      rcases List.mem_cons.mp h with h1 | h1
      · injection h1 with h2 h3
        subst h2
        subst h3
        simp [alGet]
      · by_cases hk : k = k1
        · subst hk
          exact absurd (List.mem_map_of_mem Prod.fst h1) hnd.1
        · simp only [alGet, hk, if_false]
          exact ih hnd.2 h1

/-- Claim C1 (amended round trip): for a well-formed mixed-content
fragment — safe non-empty texts, no TEXT adjacent to TEXT at top level,
element content empty or strictly alternating marker/element, distinct
word-character parameter names covering the expressions, at least one
top-level marker, and a strip-neutral rendered identifier — appending the
fragment to a fresh buffer and translating the buffer's own `format()`
output replays the original events with TEXT positions reset. -/
theorem roundtrip_amended (f : Frag) (ps : List String)
    (comment : Option String) (lineno : Int)
    (hroot : rootOk f = true)
    (hword : ∀ p ∈ ps, wordStr p = true)
    (hnd : (ps.take f.nExprs).Nodup)
    (hnE : f.nExprs ≤ ps.length)
    (hmrk : 1 ≤ f.nMarkers)
    (hstrip : pyStrip (f.render ps) = f.render ps) :
    ∃ b2, appendAll (mkMessageBuffer ps comment lineno) f.events = some b2 ∧
      b2.translate b2.format = some f.outEvents := by
  have hsafe : f.safe = true := seqOk_safe f false none hroot
  obtain ⟨b2, happ, hparams, hstring, hdepth, hstack, horder, hvals,
    hevents⟩ := appendAll_spec f (mkMessageBuffer ps comment lineno) 0 rfl
      (le_refl (1 : Int)) hnE (fun k _ => rfl) Nat.one_pos
  refine ⟨b2, happ, ?_⟩
  have hfmt : b2.format = f.render ps := by
    unfold MessageBuffer.format
    rw [hstring]
    show pyStrip (strConcat ([] ++ f.pieces ps 1)) = f.render ps
    rw [List.nil_append]
    exact hstrip
  unfold MessageBuffer.translate
  rw [hfmt, parse_msg_frag f ps hsafe hword hnE]
  show translateParts b2.values b2.events
    ((f.partsPre "" ps 0 1).1 ++
      (if (f.partsPre "" ps 0 1).2 = "" then []
       else [(0, (f.partsPre "" ps 0 1).2)])) = some f.outEvents
  have hvalsZip : ∀ pe ∈ List.zip (ps.take f.nExprs) f.xprs,
      alGet b2.values pe.1 = some pe.2 := by
    intro pe hpe
    rw [hvals pe.1]
    show (match alGet (List.zip (ps.take f.nExprs) f.xprs).reverse pe.1 with
      | some v => some v
      | none => alGet ([] : List (String × Ev)) pe.1) = some pe.2
    have hndz : ((List.zip (ps.take f.nExprs) f.xprs).reverse.map
        Prod.fst).Nodup := by
      rw [List.map_reverse]
      refine List.nodup_reverse.mpr ?_
      rw [List.map_fst_zip]
      · exact hnd
      · rw [xprs_length, List.length_take]
        omega
    have hlkp : alGet (List.zip (ps.take f.nExprs) f.xprs).reverse pe.1
        = some pe.2 := by
      refine alGet_nodup hndz ?_
      rw [List.mem_reverse]
      exact hpe
    rw [hlkp]
  have hslot0 : alGet b2.events 0
      = some ((List.map some ([] : List Ev)) ++
          (List.replicate f.nMarkers none ++ ([] : List (Option Ev)))) := by
    rw [hevents 0]
    show (match alGet (f.slots 1) 0 with
      | some v => some v
      | none =>
          if (0 : Nat) = 0 then
            match f.markers with
            | [] => alGet ([] : List (Nat × List (Option Ev))) 0
            | _ => some ((alGet ([] : List (Nat × List (Option Ev)))
                0).getD [] ++ f.markers)
          else alGet ([] : List (Nat × List (Option Ev))) 0) = _
    rw [slots_none_low f 1 0 (by omega)]
    cases hm : f.markers with
    | nil =>
        rw [markers_replicate] at hm
        have : f.nMarkers = 0 := by
          cases hnm : f.nMarkers with
          | zero => rfl
          | succ nm => rw [hnm] at hm; simp [List.replicate_succ] at hm
        omega
    | cons x xs =>
        show some (((alGet ([] : List (Nat × List (Option Ev))) 0).getD [])
          ++ (x :: xs)) = some ((List.map some ([] : List Ev)) ++
            (List.replicate f.nMarkers none ++ ([] : List (Option Ev))))
        rw [← hm, markers_replicate]
        simp [alGet]
  have hinner2 : ∀ k v, alGet (f.slots 1) k = some v →
      alGet b2.events k = some v := by
    intro k v hk
    rw [hevents k]
    show (match alGet (f.slots 1) k with
      | some v => some v
      | none =>
          if k = 0 then
            match f.markers with
            | [] => alGet ([] : List (Nat × List (Option Ev))) k
            | _ => some ((alGet ([] : List (Nat × List (Option Ev)))
                0).getD [] ++ f.markers)
          else alGet ([] : List (Nat × List (Option Ev))) k) = some v
    rw [hk]
  obtain ⟨m4, hT1, ⟨mkOut, hT2a, _, hT2c⟩, _, hT4, hT5, hT6, _⟩ :=
    translateParts_seq f b2.values b2.events [] ps 0 1 f.nMarkers [] [] []
      false
      (if (f.partsPre "" ps 0 1).2 = "" then []
       else [(0, (f.partsPre "" ps 0 1).2)])
      rfl hroot rfl hvalsZip hword hnE hslot0 hinner2 (by omega)
      (by intro h; exact absurd h (by decide))
      (by intro _; exact ⟨by simp, rfl, rfl, rfl⟩)
  simp only [show runStr ([] : List RItem) = "" from rfl] at hT1 hT6
  rw [hT1]
  have hflat := seqOut_flat f [] [] []
  rw [seqOut_lead_nil f []] at hflat
  simp only [List.nil_append, List.append_nil] at hflat
  by_cases hpf : (f.partsPre "" ps 0 1).2 = ""
  · rw [if_pos hpf]
    have hronil : runApp [] ps f = [] := by
      by_contra hne
      exact runStr_ne _ none hT4 hne (by rw [← hT6]; exact hpf)
    have hp22 : (f.seqOut [] []).2.2 = [] := by
      rw [hronil] at hT5
      exact (Option.some.inj hT5).symm
    rw [hp22] at hflat
    simp only [List.append_nil] at hflat
    simp [translateParts, hflat]
  · rw [if_neg hpf]
    have hrone : runApp [] ps f ≠ [] := by
      intro he
      rw [he] at hT6
      exact hpf hT6
    have hlen1 : 1 ≤ (runApp [] ps f).length := List.length_pos.mpr hrone
    have hmk1 : 1 ≤ mkOut := by
      have := hT2c rfl
      omega
    have hsplitF : splitSub b2.values (f.partsPre "" ps 0 1).2
        = some (f.seqOut [] []).2.2 := by
      rw [hT6, splitSub_run b2.values _ hT4]
      exact hT5
    have hm4slot : alGet m4 0 = some (List.map some ([] : List Ev) ++
        (List.replicate mkOut none ++ ([] : List (Option Ev)))) := by
      rw [hT2a, seqOut_lead_nil f []]
    have hdrain := drain_flush b2.values (f.partsPre "" ps 0 1).2
      (f.seqOut [] []).2.2 mkOut ([] : List (Option Ev)) hpf hsplitF hmk1
      (Or.inr rfl) []
    rw [translateParts_step b2.values m4 0 (f.partsPre "" ps 0 1).2 []
      _ _ _ hm4slot hdrain]
    simp only [translateParts, Option.map_some', List.nil_append]
    rw [← hflat]
    simp
/-- A concrete well-formed mixed-content fragment rendering the message
identifier "See [1:Help] for %(user)s.". -/
def fC1 : Frag :=
  Frag.txt "See " posA
    (Frag.elem "a" hrefAttrs posA posA
      (Frag.txt "Help" posA Frag.nil)
      (Frag.txt " for " posA
        (Frag.xpr (PyAst.name "user") posA
          (Frag.txt "." posA Frag.nil))))

theorem roundtrip_amended_witness :
    ∃ b2, appendAll (mkMessageBuffer ["user"] none (-1)) fC1.events
        = some b2 ∧
      b2.translate b2.format = some fC1.outEvents :=
  roundtrip_amended fC1 ["user"] none (-1) (by decide) (by decide)
    (by decide) (by decide) (by decide) (by decide)

/-- Claim C1 (counterexample): two adjacent TEXT events are captured as
two separate markers but replayed as a single merged TEXT event, so the
round trip does not yield an event sequence with the same payloads in the
same order (it does not even have the same length). -/
theorem roundtrip_counterexample :
    (appendAll (mkMessageBuffer (paramsSplit "") none (-1))
        [Ev.text "a" posA, Ev.text "b" posA]).bind
      (fun b => b.translate b.format) =
      some [Ev.text "ab" (none, -1, -1)] ∧
      [Ev.text "ab" ((none : Option String), (-1 : Int), (-1 : Int))].length ≠
        [Ev.text "a" posA, Ev.text "b" posA].length :=
  ⟨rfl, by decide⟩

end I18n